import Mathlib

/-!
# Verification of the music-librarian metadata core

A shallow embedding, in Lean 4, of the metadata core of the
`music-librarian` repository: the `metadata.txt` parser
(`parse_metadata_file`), the reference validator
(`validate_metadata_files`), the metadata merge engine
(`merge_metadata`), the encoder command builder
(`build_opusenc_command`), the cover-art selector (`find_cover_art`)
and cover phase of `process_directory`, the template generator
(`generate_metadata_template`), the album-directory classifier
(`find_album_directories`), and the audio-file discovery functions
(`find_audio_files`, `find_audio_files_with_types`,
`is_lossless_format`).

Python strings are modelled as Lean `String`s; the Python `str`
methods used by the source (`strip`, `startswith`, `endswith`,
`split`, `lower`, `upper`, `replace`) are given explicit executable
models over `String.data` so that their algebraic properties can be
proved.  Python dictionaries are modelled as insertion-ordered
association lists with unique keys, with `d[k] = v` updating an
existing entry in place and appending otherwise, exactly as CPython
preserves insertion order.  Fallible operations (the `KeyError` a
dictionary subscript could raise) are modelled with `Option`.
-/

namespace MusicLib

/-! ## Python string primitive models -/

/-- Model of Python `str.strip()` acting on the left end:
drop leading whitespace characters. -/
def stripLeft (cs : List Char) : List Char :=
  cs.dropWhile (fun c => c.isWhitespace)

/-- Model of Python `str.strip()` acting on the right end:
drop trailing whitespace characters. -/
def stripRight (cs : List Char) : List Char :=
  (cs.reverse.dropWhile (fun c => c.isWhitespace)).reverse

/-- Model of Python `str.strip()` on a character list. -/
def stripChars (cs : List Char) : List Char :=
  stripRight (stripLeft cs)

/-- Model of Python `str.strip()`. -/
def pyStrip (s : String) : String :=
  ⟨stripChars s.data⟩

/-- Model of Python `str.startswith(pat)` on character lists. -/
def listStartsWith : List Char → List Char → Bool
  | [], _ => true
  | _ :: _, [] => false
  | p :: ps, c :: cs => p == c && listStartsWith ps cs

/-- Model of Python `str.endswith(pat)` on character lists. -/
def listEndsWith (pat cs : List Char) : Bool :=
  listStartsWith pat.reverse cs.reverse

/-- Model of Python `content.split("\n")`: split a character list at
every newline character; a list with no newline yields one chunk, and
separators at either end yield empty chunks, as in Python. -/
def splitNl : List Char → List (List Char)
  | [] => [[]]
  | c :: cs =>
    if c = '\n' then [] :: splitNl cs
    else
      match splitNl cs with
      | [] => [[c]]
      | l :: ls => (c :: l) :: ls

/-- Model of Python `"\n".join(lines)` on character lists. -/
def joinNl : List (List Char) → List Char
  | [] => []
  | [l] => l
  | l :: ls => l ++ '\n' :: joinNl ls

/-- Model of Python `str.lower()` (the source only ever lowercases
ASCII names, where `Char.toLower` agrees with Python). -/
def pyLower (s : String) : String :=
  ⟨s.data.map Char.toLower⟩

/-- Model of Python `str.upper()` (ASCII). -/
def pyUpper (s : String) : String :=
  ⟨s.data.map Char.toUpper⟩

/-- Model of Python `str.replace(" ", "")`: remove every space. -/
def removeSpaces (s : String) : String :=
  ⟨s.data.filter (fun c => c != ' ')⟩

/-! ## Python dict model: insertion-ordered association lists -/

/-- A Python `dict` with `String` keys: an insertion-ordered
association list.  All dictionaries built by the program have unique
keys; theorems that need uniqueness assume `NodupKeys`. -/
abbrev Dict (α : Type) := List (String × α)

/-- Model of Python `d[k]` as a total lookup: the value at the first
matching key. -/
def dget? {α : Type} (d : Dict α) (k : String) : Option α :=
  (d.find? (fun kv => kv.1 == k)).map (fun kv => kv.2)

/-- Model of Python `k in d`. -/
def dmem {α : Type} (d : Dict α) (k : String) : Bool :=
  d.any (fun kv => kv.1 == k)

/-- Model of Python `d[k] = v`: replace in place if the key exists
(keeping its position), otherwise append, exactly as CPython
preserves insertion order. -/
def dinsert {α : Type} (d : Dict α) (k : String) (v : α) : Dict α :=
  if dmem d k then
    d.map (fun kv => if kv.1 == k then (k, v) else kv)
  else
    d ++ [(k, v)]

/-- The keys of a dictionary, in insertion order. -/
def dkeys {α : Type} (d : Dict α) : List String :=
  d.map (fun kv => kv.1)

/-- The dictionary has pairwise distinct keys (true of every dict the
Python program builds). -/
def NodupKeys {α : Type} (d : Dict α) : Prop :=
  (dkeys d).Nodup

instance {α : Type} [DecidableEq α] (d : Dict α) : Decidable (NodupKeys d) := by
  unfold NodupKeys; infer_instance

/-! ## `parse_metadata_file` (src/music_librarian/cli.py:208-256) -/

/-- The result dict of `parse_metadata_file`:
`{"album": {...}, "files": {...}}`. -/
structure ParsedMetadata where
  album : Dict String
  files : Dict (Dict String)
  deriving Repr, DecidableEq

/-- The loop state of `parse_metadata_file`: the result built so far,
`current_file` (Python `None` or a string, possibly empty — and Python
tests it for *truthiness*, so the empty string behaves like `None`
when deciding the scope of a `key: value` line), and the
`in_malformed_section` flag. -/
structure ParseState where
  album : Dict String
  files : Dict (Dict String)
  currentFile : Option String
  inMalformed : Bool
  deriving Repr, DecidableEq

/-- One iteration of the `for line in content.split("\n")` loop of
`parse_metadata_file`.  `none` models a `KeyError` on
`result["files"][current_file]` (which the totality theorem shows is
unreachable). -/
def processLine (st : ParseState) (raw : List Char) : Option ParseState :=
  let line := stripChars raw
  if line = [] then some st
  else if listStartsWith ['#'] line then some st
  else if listStartsWith ("file:".data) line && listEndsWith ([':']) line then
    -- valid file section header: filename = line[5:-1].strip()
    let filename : String := ⟨stripChars ((line.drop 5).dropLast)⟩
    let files' :=
      if dmem st.files filename then st.files else dinsert st.files filename []
    some { st with currentFile := some filename, inMalformed := false, files := files' }
  else if listStartsWith ("file:".data) line then
    -- malformed file section header
    some { st with currentFile := none, inMalformed := true }
  else if st.inMalformed then some st
  else if line.contains ':' then
    -- key:value pair, split on the first colon, both sides stripped
    let key : String := ⟨stripChars (line.takeWhile (fun c => c ≠ ':'))⟩
    let value : String := ⟨stripChars ((line.dropWhile (fun c => c ≠ ':')).drop 1)⟩
    match st.currentFile with
    | some cf =>
      if cf ≠ "" then
        match dget? st.files cf with
        | some d => some { st with files := dinsert st.files cf (dinsert d key value) }
        | none => none
      else some { st with album := dinsert st.album key value }
    | none => some { st with album := dinsert st.album key value }
  else some st

/-- Run the parser loop over a list of lines. -/
def runParse (st : ParseState) : List (List Char) → Option ParseState
  | [] => some st
  | l :: ls =>
    match processLine st l with
    | some st' => runParse st' ls
    | none => none

/-- The initial parser state: `result = {"album": {}, "files": {}}`,
`current_file = None`, `in_malformed_section = False`. -/
def initState : ParseState :=
  { album := [], files := [], currentFile := none, inMalformed := false }

/-- `parse_metadata_file` (cli.py:208-256). -/
def parse_metadata_file (content : String) : Option ParsedMetadata :=
  (runParse initState (splitNl content.data)).map
    (fun st => { album := st.album, files := st.files })

/-! ## `validate_metadata_files` (cli.py:259-273)

The function iterates the keys of `metadata["files"]` in insertion
order and raises `ValueError` at the first filename that is not a
member (by plain `==` list membership) of `available_files`.  The
raised error is modelled by `Except.error` carrying the message. -/

/-- The loop of `validate_metadata_files` over the filename keys. -/
def validateFilesLoop (available : List String) : List String → Except String Unit
  | [] => Except.ok ()
  | fn :: rest =>
    if available.contains fn then validateFilesLoop available rest
    else Except.error
      ("File " ++ "'" ++ fn ++ "'" ++ " referenced in metadata.txt does not exist")

/-- `validate_metadata_files` (cli.py:259-273). -/
def validate_metadata_files (metadata : ParsedMetadata) (available_files : List String) :
    Except String Unit :=
  validateFilesLoop available_files (dkeys metadata.files)

/-- Modelled from the spec: the Filename Normalizer component
("Unicode-normalizes filenames for equality comparison") is missing
from `src/` — the test suite imports `get_normalized_file_metadata`
from `cli.py`, which does not define it, and `cli.py` performs no
normalization.  This model performs Unicode canonical decomposition
(NFD) restricted to the decomposition the repository's own tests
exercise: U+00FC (ü) decomposes to U+0075 (u) followed by the
combining diaeresis U+0308.  Characters outside this table are their
own decomposition. -/
def specNFD (s : String) : String :=
  ⟨(s.data.map (fun c => if c = '\u00FC' then ['u', '\u0308'] else [c])).flatten⟩

/-! ## `merge_metadata` (cli.py:383-425)

The source-file tag read (`read_metadata_from_file`, an external
tagging library) is abstracted into the `source_metadata` argument:
the dict of tags the `try` block manages to read, `[]` when
`source_file_path` is `None` or reading fails (the `except` branch
continues with the empty result). -/

/-- The album layer of `merge_metadata`: `title` maps to `album`,
everything else copies through. -/
def applyAlbumLayer (result : Dict String) (album_metadata : Dict String) : Dict String :=
  album_metadata.foldl
    (fun r kv => if kv.1 == "title" then dinsert r "album" kv.2 else dinsert r kv.1 kv.2)
    result

/-- The per-file layer of `merge_metadata`: when a file-scope `artist`
overrides an album-scope `artist`, the album value is additionally
written to `albumartist` before the override is applied. -/
def applyFileLayer (album_metadata result file_metadata : Dict String) : Dict String :=
  file_metadata.foldl
    (fun r kv =>
      if kv.1 == "artist" && dmem album_metadata "artist" then
        dinsert (dinsert r "albumartist" ((dget? album_metadata "artist").getD "")) "artist" kv.2
      else dinsert r kv.1 kv.2)
    result

/-- `merge_metadata` (cli.py:383-425). -/
def merge_metadata (album_metadata file_metadata source_metadata : Dict String) :
    Dict String :=
  applyFileLayer album_metadata (applyAlbumLayer source_metadata album_metadata)
    file_metadata

/-! ## `build_opusenc_command` (cli.py:315-380)

The loop body computes `comment_key` and a `field_mapping` dict that
are never used afterwards (dead code); the effective mapping is the
`if`/`elif` chain on `key` producing `opus_key`, with `cover` skipped
via `continue` and every other field emitted as
`--comment KEY=value` — including fields whose value is the empty
string, which the code does not test for. -/

/-- The `opus_key` computed for a metadata key, `none` for the
`cover` field (skipped with `continue`). -/
def opusKey (key : String) : Option String :=
  if key == "title" then some "TITLE"
  else if key == "artist" then some "ARTIST"
  else if key == "album" then some "ALBUM"
  else if key == "date" then some "DATE"
  else if key == "track number" then some "TRACKNUMBER"
  else if key == "albumartist" then some "ALBUMARTIST"
  else if key == "cover" then none
  else some (removeSpaces (pyUpper key))

/-- `build_opusenc_command` (cli.py:315-380).  `quality = some ""` is
falsy in Python (`if quality:`), as is an empty metadata dict
(`if metadata:`). -/
def build_opusenc_command (input_file output_file : String)
    (quality : Option String) (metadata : Option (Dict String)) : List String :=
  let cmd := ["opusenc"]
  let cmd := if quality.getD "" ≠ "" then cmd ++ ["--bitrate", quality.getD ""] else cmd
  let cmd :=
    if metadata.getD [] ≠ [] then
      (metadata.getD []).foldl
        (fun acc kv =>
          match opusKey kv.1 with
          | none => acc
          | some ok => acc ++ ["--comment", ok ++ "=" ++ kv.2])
        cmd
    else cmd
  cmd ++ [input_file, output_file]

/-! ## `find_cover_art` (cli.py:276-298) -/

/-- The prefix priority order of `find_cover_art`. -/
def cover_prefixes : List String := ["cover", "folder", "front", "album"]

/-- The supported cover-art extensions. -/
def cover_extensions : List String := [".jpg", ".jpeg", ".png", ".gif", ".webp"]

/-- The inner two loops of `find_cover_art`: a file matches a prefix
when its lowercased name starts with the prefix and ends with one of
the supported extensions. -/
def coverMatches (pfx filename : String) : Bool :=
  cover_extensions.any
    (fun ext =>
      listStartsWith pfx.data (pyLower filename).data &&
      listEndsWith ext.data (pyLower filename).data)

/-- `find_cover_art` (cli.py:276-298): outer loop over prefixes in
priority order, inner loop over the files in their given order,
returning the first match. -/
def find_cover_art (available_files : List String) : Option String :=
  cover_prefixes.findSome? (fun pfx => available_files.find? (coverMatches pfx))

/-! ## `generate_metadata_template` (cli.py:686-742) -/

/-- The `lines` list built by `generate_metadata_template` before the
final `"\n".join(lines)`. -/
def generateLines (audio_files : List String) (album_metadata : Dict String)
    (file_metadata : Dict (Dict String)) (template_only : Bool) : List String :=
  ["# This file contains metadata overrides for the export command",
   "# Fields: title, artist, date, track number, cover",
   "# Album-wide fields apply to all tracks unless overridden per-file",
   "",
   "# Album metadata"]
  ++ (if template_only then ["title:", "artist:", "date:", "cover:"]
      else album_metadata.map (fun kv => kv.1 ++ ": " ++ kv.2))
  ++ ["", "# Per-file metadata"]
  ++ (audio_files.map (fun fn =>
        ("file: " ++ fn ++ ":")
          :: (if template_only then ["title:", "track number:"]
              else ((dget? file_metadata fn).getD []).map (fun kv => kv.1 ++ ": " ++ kv.2))
          ++ [""])).flatten

/-- `generate_metadata_template` (cli.py:686-742). -/
def generate_metadata_template (audio_files : List String) (album_metadata : Dict String)
    (file_metadata : Dict (Dict String)) (template_only : Bool) : String :=
  ⟨joinNl ((generateLines audio_files album_metadata file_metadata template_only).map
    String.data)⟩

/-! ## Filesystem model, `find_album_directories` (cli.py:745-774) and
file discovery (src/music_librarian/file_discovery.py) -/

/-- A directory tree: the names of the plain files directly inside the
directory, and the named subdirectories.  `Path.iterdir` yields both;
the source filters with `is_file()` / `is_dir()`, which the two fields
model. -/
inductive FSTree where
  | node (files : List String) (subs : List (String × FSTree))

/-- The plain files directly inside a directory. -/
def FSTree.direct (t : FSTree) : List String :=
  match t with
  | .node fs _ => fs

mutual
/-- All directories of the tree, the root first, each with its path
(list of name components relative to the root) — the
`[root_path] + list(root_path.rglob("*"))` sequence filtered by
`is_dir()`. -/
def FSTree.dirsOf : FSTree → List (List String × FSTree)
  | .node fs subs => ([], .node fs subs) :: FSTree.dirsOfList subs

/-- Directories contributed by a list of subdirectories. -/
def FSTree.dirsOfList : List (String × FSTree) → List (List String × FSTree)
  | [] => []
  | (n, t) :: rest =>
    (FSTree.dirsOf t).map (fun pt => (n :: pt.1, pt.2)) ++ FSTree.dirsOfList rest
end

mutual
/-- All plain files of the tree as paths relative to the root — the
`root_path.rglob("*")` sequence filtered by `is_file()`. -/
def FSTree.filesOf : FSTree → List (List String)
  | .node fs subs => fs.map (fun f => [f]) ++ FSTree.filesOfList subs

/-- Files contributed by a list of subdirectories. -/
def FSTree.filesOfList : List (String × FSTree) → List (List String)
  | [] => []
  | (n, t) :: rest => (FSTree.filesOf t).map (fun p => n :: p) ++ FSTree.filesOfList rest
end

/-- Model of `pathlib.PurePath.suffix` on a single path component:
the extension from the last dot on, empty unless the dot is preceded
by at least one character and followed by at least one character
(`".flac"` and `"a."` both have suffix `""`). -/
def pathSuffix (name : String) : String :=
  let cs := name.data
  if cs.contains '.' then
    let afterRev := cs.reverse.takeWhile (fun c => c != '.')
    let i := cs.length - 1 - afterRev.length
    if 0 < i && i + 1 < cs.length then ⟨cs.drop i⟩ else ""
  else ""

/-- The suffix of a relative path: the suffix of its last component. -/
def relPathSuffix (p : List String) : String :=
  pathSuffix (p.getLastD "")

/-- The audio extension set of `find_album_directories` (cli.py:763),
`find_audio_files` (file_discovery.py:26) and
`discover_and_sort_audio_files_in_directory_only` (cli.py:787) — the
same seven extensions in each. -/
def audio_extensions : List String :=
  [".flac", ".wav", ".mp3", ".ogg", ".aac", ".m4a", ".opus"]

/-- Whether a directory directly contains an audio file:
`file_path.suffix.lower() in audio_extensions` over `iterdir()`
restricted to plain files (cli.py:766-769). -/
def hasDirectAudio (t : FSTree) : Bool :=
  t.direct.any (fun f => audio_extensions.contains (pyLower (pathSuffix f)))

/-- `find_album_directories` (cli.py:745-774): every directory of the
tree, the root included, that directly contains at least one audio
file. -/
def find_album_directories (t : FSTree) : List (List String) :=
  ((FSTree.dirsOf t).filter (fun pt => hasDirectAudio pt.2)).map (fun pt => pt.1)

/-- `is_lossless_format` (file_discovery.py:37-47):
`file_path.suffix.lower() in {".flac", ".wav"}`. -/
def is_lossless_format (p : List String) : Bool :=
  [".flac", ".wav"].contains (pyLower (relPathSuffix p))

/-- The lossy extension set of `find_audio_files_with_types`
(file_discovery.py:69). -/
def lossy_extensions : List String := [".mp3", ".ogg", ".aac", ".m4a", ".opus"]

/-- `find_audio_files` (file_discovery.py:7-34): all files of the tree
whose lowercased suffix is an audio extension, as relative paths. -/
def find_audio_files (t : FSTree) : List (List String) :=
  t.filesOf.filter (fun p => audio_extensions.contains (pyLower (relPathSuffix p)))

/-- `find_audio_files_with_types` (file_discovery.py:50-83): one pass
over the files, appending each to the `lossless` or `lossy` list by
its lowercased suffix (files matching neither set are dropped). -/
def find_audio_files_with_types (t : FSTree) : List (List String) × List (List String) :=
  t.filesOf.foldl
    (fun res p =>
      let sfx := pyLower (relPathSuffix p)
      if [".flac", ".wav"].contains sfx then (res.1 ++ [p], res.2)
      else if lossy_extensions.contains sfx then (res.1, res.2 ++ [p])
      else res)
    ([], [])

/-! ## The cover-art phase of `process_directory` (cli.py:559-622)

The filesystem reads the phase performs (`os.path.exists`,
`os.listdir`) are abstracted into a snapshot; the `shutil.copy2`
calls it issues are recorded as (source, destination) pairs; the
errors it appends are returned.  `copy2` itself is modelled as
succeeding (its `except` arms are dead under that model). -/

/-- The filesystem snapshot the cover phase consults. -/
structure CoverFS where
  existsFile : String → Bool
  listdir : String → List String

/-- The outcome of the cover-art phase: the final
`cover_art_copied` flag, the copies performed, and the errors
appended. -/
structure CoverResult where
  copied : Bool
  copyOps : List (String × String)
  errors : List String
  deriving Repr, DecidableEq

/-- Model of `os.path.join(a, b)` for a relative `b`. -/
def pyJoin (a b : String) : String := a ++ "/" ++ b

/-- Model of `os.path.dirname`: everything before the last `/`, empty
when there is none. -/
def pyDirname (s : String) : String :=
  if s.data.contains '/' then
    ⟨(((s.data.reverse.dropWhile (fun c => c != '/')).drop 1)).reverse⟩
  else ""

/-- Model of `os.path.splitext(name)[1]`: the extension from the last
dot of the basename, provided a non-dot character precedes it
(`splitext(".cshrc")` has extension `""`, `splitext("a.")` has
extension `"."`). -/
def pySplitextExt (name : String) : String :=
  let base := ((name.data.reverse.takeWhile (fun c => c != '/'))).reverse
  if base.contains '.' then
    let afterRev := base.reverse.takeWhile (fun c => c != '.')
    let i := base.length - 1 - afterRev.length
    if (base.take i).any (fun c => c != '.') then ⟨base.drop i⟩ else ""
  else ""

/-- The fallback branch of the cover phase (cli.py:585-622): collect
the set of directories containing audio files (modelled as an
order-preserving deduplication of the `dirname`s; CPython iterates
the set in an unspecified order) and, for each, run `find_cover_art`
over its listing and copy the result unless the destination exists
and `force` is unset. -/
def coverFallback (fs : CoverFS) (source_dir dest_dir : String)
    (all_audio_files : List String) (force : Bool) : CoverResult :=
  let audio_dirs := (all_audio_files.map pyDirname).dedup
  audio_dirs.foldl
    (fun res d =>
      let source_subdir := if d ≠ "" then pyJoin source_dir d else source_dir
      let dest_subdir := if d ≠ "" then pyJoin dest_dir d else dest_dir
      if fs.existsFile source_subdir then
        match find_cover_art (fs.listdir source_subdir) with
        | some cover_art =>
          let src := pyJoin source_subdir cover_art
          let dst := pyJoin dest_subdir cover_art
          if !fs.existsFile dst || force then
            { res with copied := true, copyOps := res.copyOps ++ [(src, dst)] }
          else res
        | none => res
      else res)
    { copied := false, copyOps := [], errors := [] }

/-- The cover-art phase of `process_directory` (cli.py:559-622).
`specified_cover = metadata["album"].get("cover", "").strip()`; when
non-empty it is used verbatim, and a missing file is recorded as an
error with no fallback; otherwise the priority heuristic runs. -/
def coverArtPhase (fs : CoverFS) (source_dir dest_dir : String)
    (album_metadata : Dict String) (all_audio_files : List String)
    (force : Bool) : CoverResult :=
  let specified_cover := pyStrip ((dget? album_metadata "cover").getD "")
  if specified_cover ≠ "" then
    let cover_src := pyJoin source_dir specified_cover
    if fs.existsFile cover_src then
      let ext := pySplitextExt specified_cover
      let cover_dest := pyJoin dest_dir ("cover" ++ ext)
      if !fs.existsFile cover_dest || force then
        { copied := true, copyOps := [(cover_src, cover_dest)], errors := [] }
      else { copied := false, copyOps := [], errors := [] }
    else
      { copied := false, copyOps := [],
        errors := ["Cover file specified in metadata.txt not found: " ++ specified_cover] }
  else
    coverFallback fs source_dir dest_dir all_audio_files force

/-- The result dict of `process_directory` (cli.py:633-638). -/
structure ProcessResult where
  processed : Nat
  skipped : Nat
  errors : List String
  cover_art_copied : Bool
  deriving Repr, DecidableEq

/-- The tail of `process_directory` (cli.py:559-638): after the
per-file loop has produced counts and errors, the cover phase runs,
its errors are appended, and the result dict is returned (the
ReplayGain step is an external invocation, modelled as succeeding, so
it appends no error). -/
def processDirectoryTail (processed skipped : Nat) (fileErrors : List String)
    (fs : CoverFS) (source_dir dest_dir : String) (album_metadata : Dict String)
    (all_audio_files : List String) (force : Bool) : ProcessResult :=
  let cover := coverArtPhase fs source_dir dest_dir album_metadata all_audio_files force
  { processed := processed, skipped := skipped,
    errors := fileErrors ++ cover.errors, cover_art_copied := cover.copied }

/-! ## Dictionary lemmas -/

theorem dget?_nil {α : Type} (k : String) : dget? ([] : Dict α) k = none := rfl

theorem dget?_cons {α : Type} (kv : String × α) (d : Dict α) (k : String) :
    dget? (kv :: d) k = if kv.1 = k then some kv.2 else dget? d k := by
  simp only [dget?, List.find?]
  by_cases h : kv.1 = k
  · simp [h]
  · simp [h, beq_eq_false_iff_ne.mpr h]

theorem dmem_nil {α : Type} (k : String) : dmem ([] : Dict α) k = false := rfl

theorem dmem_cons {α : Type} (kv : String × α) (d : Dict α) (k : String) :
    dmem (kv :: d) k = ((kv.1 == k) || dmem d k) := by
  simp [dmem]

theorem dmem_append {α : Type} (d₁ d₂ : Dict α) (k : String) :
    dmem (d₁ ++ d₂) k = (dmem d₁ k || dmem d₂ k) := by
  simp [dmem, List.any_append]

theorem dmem_eq_isSome {α : Type} (d : Dict α) (k : String) :
    dmem d k = (dget? d k).isSome := by
  induction d with
  | nil => rfl
  | cons kv rest ih =>
    rw [dmem_cons, dget?_cons, ih]
    by_cases h : kv.1 = k <;> simp [h]

theorem dmem_eq_false_iff {α : Type} {d : Dict α} {k : String} :
    dmem d k = false ↔ ∀ kv ∈ d, kv.1 ≠ k := by
  simp [dmem]

theorem dget?_eq_none_of_not_mem {α : Type} {d : Dict α} {k : String}
    (h : ∀ kv ∈ d, kv.1 ≠ k) : dget? d k = none := by
  rw [← Option.not_isSome_iff_eq_none, ← dmem_eq_isSome]
  simp [dmem_eq_false_iff.mpr h]

theorem mem_of_dget?_eq_some {α : Type} {d : Dict α} {k : String} {v : α}
    (h : dget? d k = some v) : (k, v) ∈ d := by
  induction d with
  | nil => simp [dget?_nil] at h
  | cons kv rest ih =>
    rw [dget?_cons] at h
    by_cases hk : kv.1 = k
    · rw [if_pos hk] at h
      have hv : kv.2 = v := Option.some_injective _ h
      have : kv = (k, v) := by
        cases kv
        simp_all
      rw [← this]
      exact List.mem_cons_self _ _
    · rw [if_neg hk] at h
      exact List.mem_cons_of_mem _ (ih h)

theorem dinsert_of_not_mem {α : Type} {d : Dict α} {k : String} (v : α)
    (h : dmem d k = false) : dinsert d k v = d ++ [(k, v)] := by
  simp [dinsert, h]

theorem dget?_append_left {α : Type} {d₁ : Dict α} (d₂ : Dict α) {k : String} {v : α}
    (h : dget? d₁ k = some v) : dget? (d₁ ++ d₂) k = some v := by
  induction d₁ with
  | nil => simp [dget?_nil] at h
  | cons kv rest ih =>
    rw [dget?_cons] at h
    rw [List.cons_append, dget?_cons]
    by_cases hk : kv.1 = k
    · rw [if_pos hk] at h ⊢
      exact h
    · rw [if_neg hk] at h ⊢
      exact ih h

theorem dget?_append_right {α : Type} {d₁ : Dict α} (d₂ : Dict α) {k : String}
    (h : dget? d₁ k = none) : dget? (d₁ ++ d₂) k = dget? d₂ k := by
  induction d₁ with
  | nil => rfl
  | cons kv rest ih =>
    rw [dget?_cons] at h
    rw [List.cons_append, dget?_cons]
    by_cases hk : kv.1 = k
    · rw [if_pos hk] at h
      exact absurd h (by simp)
    · rw [if_neg hk] at h ⊢
      exact ih h

theorem dget?_mapReplace_self {α : Type} (d : Dict α) (k : String) (v : α)
    (h : dmem d k = true) :
    dget? (d.map (fun kv => if kv.1 == k then (k, v) else kv)) k = some v := by
  induction d with
  | nil => simp [dmem_nil] at h
  | cons kv rest ih =>
    rw [dmem_cons] at h
    rw [List.map_cons]
    by_cases hk : kv.1 = k
    · rw [if_pos (beq_iff_eq.mpr hk), dget?_cons, if_pos rfl]
    · have hr : dmem rest k = true := by
        simpa [beq_eq_false_iff_ne.mpr hk] using h
      rw [if_neg (by simp [hk]), dget?_cons, if_neg hk]
      exact ih hr

theorem dget?_mapReplace_ne {α : Type} (d : Dict α) {k k' : String} (v : α)
    (h : k ≠ k') :
    dget? (d.map (fun kv => if kv.1 == k then (k, v) else kv)) k' = dget? d k' := by
  induction d with
  | nil => rfl
  | cons kv rest ih =>
    rw [List.map_cons]
    by_cases hk : kv.1 = k
    · rw [if_pos (beq_iff_eq.mpr hk), dget?_cons, dget?_cons, if_neg h,
        if_neg (by rw [hk]; exact h), ih]
    · rw [if_neg (by simp [hk]), dget?_cons, dget?_cons, ih]

theorem dget?_dinsert_self {α : Type} (d : Dict α) (k : String) (v : α) :
    dget? (dinsert d k v) k = some v := by
  unfold dinsert
  by_cases h : dmem d k
  · rw [if_pos h]
    exact dget?_mapReplace_self d k v h
  · rw [if_neg h]
    have hn : dget? d k = none := by
      rw [← Option.not_isSome_iff_eq_none, ← dmem_eq_isSome]
      simpa using h
    rw [dget?_append_right _ hn, dget?_cons, if_pos rfl]

theorem dget?_dinsert_ne {α : Type} (d : Dict α) {k k' : String} (v : α)
    (h : k ≠ k') : dget? (dinsert d k v) k' = dget? d k' := by
  unfold dinsert
  by_cases hm : dmem d k
  · rw [if_pos hm]
    exact dget?_mapReplace_ne d v h
  · rw [if_neg hm]
    by_cases hv : (dget? d k').isSome
    · obtain ⟨w, hw⟩ := Option.isSome_iff_exists.mp hv
      rw [hw, dget?_append_left _ hw]
    · have hn : dget? d k' = none := Option.not_isSome_iff_eq_none.mp hv
      rw [hn, dget?_append_right _ hn, dget?_cons, if_neg h, dget?_nil]

theorem dmem_dinsert_self {α : Type} (d : Dict α) (k : String) (v : α) :
    dmem (dinsert d k v) k = true := by
  rw [dmem_eq_isSome, dget?_dinsert_self]
  rfl

theorem map_replace_eq_self {α : Type} {d : Dict α} {k : String} (v : α)
    (h : ∀ kv ∈ d, kv.1 ≠ k) :
    d.map (fun kv => if kv.1 == k then (k, v) else kv) = d := by
  conv_rhs => rw [← List.map_id d]
  exact List.map_congr_left (fun kv hkv => by
    simp [beq_eq_false_iff_ne.mpr (h kv hkv)])

theorem dinsert_append_solo {α : Type} {base : Dict α} {k : String} (dOld dNew : α)
    (h : dmem base k = false) :
    dinsert (base ++ [(k, dOld)]) k dNew = base ++ [(k, dNew)] := by
  have hm : dmem (base ++ [(k, dOld)]) k = true := by
    rw [dmem_append, dmem_cons]
    simp
  rw [dinsert, if_pos hm, List.map_append,
    map_replace_eq_self dNew (dmem_eq_false_iff.mp h)]
  simp

theorem foldl_dinsert_fresh {α : Type} (l : List (String × α)) :
    ∀ acc : Dict α, (∀ kv ∈ l, dmem acc kv.1 = false) → NodupKeys l →
    l.foldl (fun d kv => dinsert d kv.1 kv.2) acc = acc ++ l := by
  induction l with
  | nil => intro acc _ _; simp
  | cons kv rest ih =>
    intro acc hfresh hnd
    have h' : kv.1 ∉ rest.map (fun kv => kv.1) ∧ (rest.map (fun kv => kv.1)).Nodup := by
      have := hnd
      rw [NodupKeys, dkeys, List.map_cons, List.nodup_cons] at this
      exact this
    rw [List.foldl_cons, dinsert_of_not_mem _ (hfresh kv (List.mem_cons_self _ _))]
    rw [ih (acc ++ [(kv.1, kv.2)])
      (fun kv' hkv' => by
        rw [dmem_append, hfresh kv' (List.mem_cons_of_mem _ hkv'), dmem_cons, dmem_nil]
        have hne : kv'.1 ≠ kv.1 := by
          intro heq
          exact h'.1 (heq ▸ List.mem_map_of_mem (fun kv => kv.1) hkv')
        simp [beq_eq_false_iff_ne.mpr (Ne.symm hne)])
      h'.2]
    simp

/-! ## Claim C1: Unicode-normalized filename validation -/

/-- **C1** (code bug): `validate_metadata_files` is specified (and
tested, in `test_validate_unicode_filenames_nfd_nfc_mismatch`) to
match referenced filenames against available filenames under Unicode
canonical-equivalence comparison, but the code compares raw strings
with plain list membership.  At the test suite's own input — the NFD
string `"04-THYX-FürImmer.flac"` referenced in the metadata
while the available list holds the NFC string
`"04-THYX-FürImmer.flac"` — the two strings are canonically
equivalent (equal after `specNFD`) yet distinct, and validation
raises `ValueError` where the claim requires success. -/
theorem validate_metadata_files_no_normalization :
    ("04-THYX-Fu\u0308rImmer.flac" : String) ≠ "04-THYX-F\u00FCrImmer.flac"
    ∧ specNFD "04-THYX-Fu\u0308rImmer.flac" = specNFD "04-THYX-F\u00FCrImmer.flac"
    ∧ validate_metadata_files
        { album := [("title", "Test Album")],
          files := [("04-THYX-Fu\u0308rImmer.flac", [("title", "Unicode Track")])] }
        ["04-THYX-F\u00FCrImmer.flac"]
      = Except.error
          ("File '04-THYX-Fu\u0308rImmer.flac'" ++ " referenced in metadata.txt does not exist") :=
  ⟨by decide, by decide, rfl⟩

/-! ## Claim C5: opusenc command construction -/

/-- **C5** (code bug): `build_opusenc_command` is specified (and
tested, in `test_build_opusenc_command_empty_metadata_values`) to
skip metadata fields whose value is the empty string, but the code
emits a `--comment KEY=` pair for them: at the test suite's own input
`{"title": "", "artist": "Artist Name"}` the command contains
`--comment TITLE=` for the blank title.  The rest of the claim is
visible in the same evaluation: one `--comment KEY=value` pair per
remaining field and the source and destination paths as the final two
positional arguments. -/
theorem build_opusenc_command_keeps_empty_values :
    build_opusenc_command "/source/track.flac" "/dest/track.opus" none
        (some [("title", ""), ("artist", "Artist Name")])
      = ["opusenc", "--comment", "TITLE=", "--comment", "ARTIST=Artist Name",
         "/source/track.flac", "/dest/track.opus"] := by
  decide

/-! ## Claim C7: cover-art priority search -/

/-- **C7**: `find_cover_art` searches prefixes in the fixed priority
order `cover, folder, front, album` (outer loop) and files in their
given order (inner loop): whenever some file matches the `cover`
prefix the result matches `cover` — so any `cover`-prefixed match
beats every `folder`-prefixed file regardless of position — the
result is `none` when no file matches any prefix, and on the claim's
concrete lists the first-priority file is returned. -/
theorem find_cover_art_priority :
    (∀ files : List String, (∃ f ∈ files, coverMatches "cover" f = true) →
      ∃ g, find_cover_art files = some g ∧ coverMatches "cover" g = true)
    ∧ (∀ files : List String,
        (∀ f ∈ files, ∀ pfx ∈ cover_prefixes, coverMatches pfx f = false) →
        find_cover_art files = none)
    ∧ find_cover_art ["album.jpg", "front.jpg", "folder.jpg", "cover.jpg"] = some "cover.jpg"
    ∧ find_cover_art ["folder.png", "front.jpg"] = some "folder.png" := by
  refine ⟨?_, ?_, by decide, by decide⟩
  · intro files hex
    have hsome : (files.find? (coverMatches "cover")).isSome := by
      rw [List.find?_isSome]
      obtain ⟨f, hf, hm⟩ := hex
      exact ⟨f, hf, hm⟩
    obtain ⟨g, hg⟩ := Option.isSome_iff_exists.mp hsome
    refine ⟨g, ?_, List.find?_some hg⟩
    simp only [find_cover_art, cover_prefixes, List.findSome?_cons, hg]
  · intro files hall
    have hnone : ∀ pfx ∈ cover_prefixes, files.find? (coverMatches pfx) = none := by
      intro pfx hpfx
      rw [List.find?_eq_none]
      intro f hf
      simp [hall f hf pfx hpfx]
    simp only [find_cover_art, cover_prefixes] at *
    rw [List.findSome?_cons, List.findSome?_cons, List.findSome?_cons, List.findSome?_cons]
    rw [hnone "cover" (by simp), hnone "folder" (by simp),
      hnone "front" (by simp), hnone "album" (by simp)]
    rfl

/-- Witness: applying the priority theorem at a concrete list where a
`folder`-prefixed file precedes a `cover`-prefixed one. -/
theorem find_cover_art_priority_witness :
    ∃ g, find_cover_art ["folder.jpg", "cover.png"] = some g ∧
      coverMatches "cover" g = true :=
  find_cover_art_priority.1 ["folder.jpg", "cover.png"]
    ⟨"cover.png", by decide, by decide⟩

/-! ## Claim C8: album-directory classification -/

/-- **C8**: `find_album_directories` returns exactly the directories
of the tree (the root included) that directly contain at least one
file with a recognized audio extension (compared case-insensitively);
on the claim's tree — audio at `root/a.flac` and `root/X/b.flac`,
with `root/X/Y` empty — it returns exactly `root` and `root/X`,
excluding `root/X/Y`. -/
theorem find_album_directories_direct_audio :
    (∀ (t : FSTree) (p : List String),
      p ∈ find_album_directories t ↔
        ∃ sub, (p, sub) ∈ FSTree.dirsOf t ∧ hasDirectAudio sub = true)
    ∧ (∀ t : FSTree, hasDirectAudio t = true ↔
        ∃ f ∈ t.direct, audio_extensions.contains (pyLower (pathSuffix f)) = true)
    ∧ find_album_directories
        (.node ["a.flac"] [("X", .node ["b.flac"] [("Y", .node [] [])])]) = [[], ["X"]]
    ∧ ["X", "Y"] ∉ find_album_directories
        (.node ["a.flac"] [("X", .node ["b.flac"] [("Y", .node [] [])])]) := by
  refine ⟨?_, ?_, by decide, by decide⟩
  · intro t p
    simp only [find_album_directories, List.mem_map, List.mem_filter]
    constructor
    · rintro ⟨⟨p', sub⟩, ⟨hmem, hq⟩, rfl⟩
      exact ⟨sub, hmem, hq⟩
    · rintro ⟨sub, hmem, hq⟩
      exact ⟨(p, sub), ⟨hmem, hq⟩, rfl⟩
  · intro t
    simp [hasDirectAudio, List.any_eq_true]

/-- Witness: instantiating the classification theorem on the claim's
tree at the subdirectory `X`. -/
theorem find_album_directories_direct_audio_witness :
    ∃ sub, (["X"], sub) ∈ FSTree.dirsOf
        (.node ["a.flac"] [("X", .node ["b.flac"] [("Y", .node [] [])])]) ∧
      hasDirectAudio sub = true :=
  (find_album_directories_direct_audio.1
    (.node ["a.flac"] [("X", .node ["b.flac"] [("Y", .node [] [])])]) ["X"]).mp
    (by decide)

/-! ## Claim C10: file discovery classification is a partition -/

/-- The single pass of `find_audio_files_with_types` is the pair of
filters by the lossless and the remaining lossy suffixes. -/
theorem find_audio_files_with_types_eq_filters (t : FSTree) :
    find_audio_files_with_types t =
      (t.filesOf.filter is_lossless_format,
       t.filesOf.filter (fun p =>
         !is_lossless_format p &&
           lossy_extensions.contains (pyLower (relPathSuffix p)))) := by
  have main : ∀ (l : List (List String)) (a b : List (List String)),
      l.foldl
        (fun res p =>
          let sfx := pyLower (relPathSuffix p)
          if [".flac", ".wav"].contains sfx then (res.1 ++ [p], res.2)
          else if lossy_extensions.contains sfx then (res.1, res.2 ++ [p])
          else res)
        (a, b)
      = (a ++ l.filter is_lossless_format,
         b ++ l.filter (fun p =>
           !is_lossless_format p &&
             lossy_extensions.contains (pyLower (relPathSuffix p)))) := by
    intro l
    induction l with
    | nil => intro a b; simp
    | cons p rest ih =>
      intro a b
      rw [List.foldl_cons]
      by_cases h1 : [".flac", ".wav"].contains (pyLower (relPathSuffix p)) = true
      · have hl : is_lossless_format p = true := h1
        simp only [h1, if_pos rfl, ih, List.filter_cons, hl]
        simp
      · have hl : is_lossless_format p = false := by
          rw [is_lossless_format]
          exact Bool.eq_false_iff.mpr h1
        by_cases h2 : lossy_extensions.contains (pyLower (relPathSuffix p)) = true
        · simp only [h1, h2, ih, List.filter_cons, hl]
          simp [h2]
        · simp only [h1, h2, ih, List.filter_cons, hl]
          simp [Bool.eq_false_iff.mpr h2]
  rw [find_audio_files_with_types, main t.filesOf [] []]
  simp

/-- The seven-extension audio set is the union of the lossless and
lossy sets. -/
theorem audio_extensions_split (s : String) :
    audio_extensions.contains s =
      ([".flac", ".wav"].contains s || lossy_extensions.contains s) := by
  simp only [audio_extensions, lossy_extensions, List.contains_cons, List.contains_nil]
  cases s == ".flac" <;> cases s == ".wav" <;> simp

/-- **C10**: on every tree, the `lossless` and `lossy` lists returned
by `find_audio_files_with_types` are disjoint, together they contain
exactly the files returned by `find_audio_files`, and a discovered
audio file lands in `lossless` precisely when `is_lossless_format`
holds for it. -/
theorem find_audio_files_with_types_partition :
    ∀ (t : FSTree) (p : List String),
      ¬(p ∈ (find_audio_files_with_types t).1 ∧ p ∈ (find_audio_files_with_types t).2)
      ∧ ((p ∈ (find_audio_files_with_types t).1 ∨ p ∈ (find_audio_files_with_types t).2)
          ↔ p ∈ find_audio_files t)
      ∧ (p ∈ find_audio_files t →
          (p ∈ (find_audio_files_with_types t).1 ↔ is_lossless_format p = true)) := by
  intro t p
  rw [find_audio_files_with_types_eq_filters]
  simp only [find_audio_files, List.mem_filter]
  have hsplit := audio_extensions_split (pyLower (relPathSuffix p))
  have hll_def : is_lossless_format p
      = [".flac", ".wav"].contains (pyLower (relPathSuffix p)) := rfl
  refine ⟨?_, ⟨?_, ?_⟩, ?_⟩
  · rintro ⟨⟨-, h1⟩, ⟨-, h2⟩⟩
    rw [Bool.and_eq_true, Bool.not_eq_true'] at h2
    exact absurd h1 (by simp [h2.1])
  · rintro (⟨hm, h⟩ | ⟨hm, h⟩)
    · refine ⟨hm, ?_⟩
      rw [hsplit, Bool.or_eq_true]
      rw [hll_def] at h
      exact Or.inl h
    · refine ⟨hm, ?_⟩
      rw [hsplit, Bool.or_eq_true]
      rw [Bool.and_eq_true] at h
      exact Or.inr h.2
  · rintro ⟨hm, h⟩
    rw [hsplit, Bool.or_eq_true] at h
    rcases h with h | h
    · exact Or.inl ⟨hm, by rw [hll_def]; exact h⟩
    · by_cases hc : is_lossless_format p = true
      · exact Or.inl ⟨hm, hc⟩
      · refine Or.inr ⟨hm, ?_⟩
        rw [Bool.and_eq_true, Bool.not_eq_true']
        exact ⟨Bool.eq_false_iff.mpr hc, h⟩
  · rintro ⟨hm, -⟩
    exact ⟨fun h => h.2, fun h => ⟨hm, h⟩⟩

/-- Witness: instantiating the partition theorem on a concrete tree
holding one lossless and one lossy file. -/
theorem find_audio_files_with_types_partition_witness :
    ["a.flac"] ∈ (find_audio_files_with_types
        (.node ["a.flac", "x.txt"] [("X", .node ["b.mp3"] [])])).1 ↔
      is_lossless_format ["a.flac"] = true :=
  (find_audio_files_with_types_partition
    (.node ["a.flac", "x.txt"] [("X", .node ["b.mp3"] [])]) ["a.flac"]).2.2
    (by decide)

/-! ## Claim C9: missing explicit cover override -/

/-- **C9**: when the parsed album metadata carries a `cover` field
that is non-empty after trimming and the named file does not exist in
the source directory, the cover phase of `process_directory` records
exactly the missing-cover error, copies nothing, and never consults
the directory listings the fallback heuristic would use (the result
is unchanged under any replacement of `listdir`); the directory's
processing still completes, returning its statistics with the error
appended. -/
theorem process_directory_missing_cover :
    ∀ (fs : CoverFS) (source_dir dest_dir : String) (album_metadata : Dict String)
      (all_audio_files : List String) (force : Bool)
      (processed skipped : Nat) (fileErrors : List String),
    pyStrip ((dget? album_metadata "cover").getD "") ≠ "" →
    fs.existsFile (pyJoin source_dir (pyStrip ((dget? album_metadata "cover").getD ""))) = false →
    coverArtPhase fs source_dir dest_dir album_metadata all_audio_files force =
      { copied := false, copyOps := [],
        errors := ["Cover file specified in metadata.txt not found: "
          ++ pyStrip ((dget? album_metadata "cover").getD "")] }
    ∧ (∀ ld : String → List String,
        coverArtPhase { fs with listdir := ld } source_dir dest_dir album_metadata
            all_audio_files force =
          coverArtPhase fs source_dir dest_dir album_metadata all_audio_files force)
    ∧ processDirectoryTail processed skipped fileErrors fs source_dir dest_dir
        album_metadata all_audio_files force =
      { processed := processed, skipped := skipped,
        errors := fileErrors ++ ["Cover file specified in metadata.txt not found: "
          ++ pyStrip ((dget? album_metadata "cover").getD "")],
        cover_art_copied := false } := by
  intro fs source_dir dest_dir album_metadata all_audio_files force processed skipped
    fileErrors hspec hmiss
  have hphase : coverArtPhase fs source_dir dest_dir album_metadata all_audio_files force =
      { copied := false, copyOps := [],
        errors := ["Cover file specified in metadata.txt not found: "
          ++ pyStrip ((dget? album_metadata "cover").getD "")] } := by
    simp only [coverArtPhase]
    rw [if_pos hspec, if_neg (by simp [hmiss])]
  refine ⟨hphase, ?_, ?_⟩
  · intro ld
    rw [hphase]
    simp only [coverArtPhase]
    rw [if_pos hspec, if_neg (by simp [hmiss])]
  · simp only [processDirectoryTail]
    rw [hphase]

/-- Witness: on a snapshot where no file exists, an album `cover`
field of `art.png` produces exactly the missing-cover error and no
copy. -/
theorem process_directory_missing_cover_witness :
    coverArtPhase ⟨fun _ => false, fun _ => []⟩ "/src" "/dst" [("cover", "art.png")]
        ["t.flac"] false =
      { copied := false, copyOps := [],
        errors := ["Cover file specified in metadata.txt not found: art.png"] } := by
  have h := (process_directory_missing_cover ⟨fun _ => false, fun _ => []⟩ "/src" "/dst"
    [("cover", "art.png")] ["t.flac"] false 0 0 [] (by decide) rfl).1
  simpa using h

/-! ## Claim C2: merge precedence and the albumartist rule -/

theorem nodupKeys_cons {α : Type} {kv : String × α} {rest : List (String × α)}
    (h : NodupKeys (kv :: rest)) :
    (∀ kv' ∈ rest, kv'.1 ≠ kv.1) ∧ NodupKeys rest := by
  rw [NodupKeys, dkeys, List.map_cons, List.nodup_cons] at h
  refine ⟨fun kv' h' heq => h.1 ?_, h.2⟩
  rw [← heq]
  exact List.mem_map_of_mem _ h'

theorem fst_mem_dkeys {α : Type} {k : String} {v : α} {d : Dict α}
    (h : (k, v) ∈ d) : k ∈ d.map (fun kv => kv.1) :=
  List.mem_map_of_mem _ h

theorem applyAlbumLayer_unfold (r : Dict String) (kv : String × String)
    (rest : Dict String) :
    applyAlbumLayer r (kv :: rest) =
      applyAlbumLayer
        (if kv.1 == "title" then dinsert r "album" kv.2 else dinsert r kv.1 kv.2)
        rest := by
  simp only [applyAlbumLayer, List.foldl_cons]

/-- The album layer leaves a key untouched when the album dict does
not write it (neither directly nor via the `title` → `album`
mapping). -/
theorem applyAlbumLayer_skip (a : Dict String) :
    ∀ (r : Dict String) (k : String),
    (∀ kv ∈ a, kv.1 ≠ k) → (k = "album" → ∀ kv ∈ a, kv.1 ≠ "title") →
    dget? (applyAlbumLayer r a) k = dget? r k := by
  induction a with
  | nil => intro r k _ _; rfl
  | cons kv rest ih =>
    intro r k h1 h2
    rw [applyAlbumLayer_unfold]
    rw [ih _ k (fun kv' h' => h1 kv' (List.mem_cons_of_mem _ h'))
      (fun he kv' h' => h2 he kv' (List.mem_cons_of_mem _ h'))]
    by_cases ht : kv.1 = "title"
    · rw [if_pos (beq_iff_eq.mpr ht)]
      refine dget?_dinsert_ne _ _ (fun heq => ?_)
      exact (h2 heq.symm kv (List.mem_cons_self _ _)) ht
    · rw [if_neg (by simp [ht])]
      exact dget?_dinsert_ne _ _ (h1 kv (List.mem_cons_self _ _))

/-- A non-`title` album field wins over the layer below. -/
theorem applyAlbumLayer_mem (a : Dict String) :
    ∀ (r : Dict String) (k v : String),
    NodupKeys a → (k, v) ∈ a → k ≠ "title" →
    (k = "album" → ∀ kv ∈ a, kv.1 ≠ "title") →
    dget? (applyAlbumLayer r a) k = some v := by
  induction a with
  | nil => intro r k v _ hmem _ _; simp at hmem
  | cons kv rest ih =>
    intro r k v hnd hmem hk h2
    obtain ⟨hfresh, hnd'⟩ := nodupKeys_cons hnd
    rw [applyAlbumLayer_unfold]
    rcases List.mem_cons.mp hmem with heq | hmem'
    · obtain rfl : kv = (k, v) := heq.symm
      rw [if_neg (by simp [hk])]
      rw [applyAlbumLayer_skip rest _ k
        (fun kv' h' => hfresh kv' h')
        (fun he kv' h' => h2 he kv' (List.mem_cons_of_mem _ h'))]
      exact dget?_dinsert_self _ _ _
    · exact ih _ k v hnd' hmem' hk
        (fun he kv' h' => h2 he kv' (List.mem_cons_of_mem _ h'))

/-- The album-scope `title` field is written to the `album` output
key. -/
theorem applyAlbumLayer_title (a : Dict String) :
    ∀ (r : Dict String) (t : String),
    NodupKeys a → ("title", t) ∈ a → (∀ kv ∈ a, kv.1 ≠ "album") →
    dget? (applyAlbumLayer r a) "album" = some t := by
  induction a with
  | nil => intro r t _ hmem _; simp at hmem
  | cons kv rest ih =>
    intro r t hnd hmem hna
    obtain ⟨hfresh, hnd'⟩ := nodupKeys_cons hnd
    rw [applyAlbumLayer_unfold]
    rcases List.mem_cons.mp hmem with heq | hmem'
    · obtain rfl : kv = ("title", t) := heq.symm
      rw [if_pos (by simp)]
      rw [applyAlbumLayer_skip rest _ "album"
        (fun kv' h' => hna kv' (List.mem_cons_of_mem _ h'))
        (fun _ kv' h' => hfresh kv' h')]
      exact dget?_dinsert_self _ _ _
    · exact ih _ t hnd' hmem' (fun kv' h' => hna kv' (List.mem_cons_of_mem _ h'))

theorem applyFileLayer_unfold (a r : Dict String) (kv : String × String)
    (rest : Dict String) :
    applyFileLayer a r (kv :: rest) =
      applyFileLayer a
        (if kv.1 == "artist" && dmem a "artist" then
          dinsert (dinsert r "albumartist" ((dget? a "artist").getD "")) "artist" kv.2
        else dinsert r kv.1 kv.2)
        rest := by
  simp only [applyFileLayer, List.foldl_cons]

/-- The per-file layer leaves a key untouched when the file dict does
not write it (neither directly nor via the `albumartist` side
effect). -/
theorem applyFileLayer_skip (a f : Dict String) :
    ∀ (r : Dict String) (k : String),
    (∀ kv ∈ f, kv.1 ≠ k) →
    (k = "albumartist" → (∀ kv ∈ f, kv.1 ≠ "artist") ∨ dmem a "artist" = false) →
    dget? (applyFileLayer a r f) k = dget? r k := by
  induction f with
  | nil => intro r k _ _; rfl
  | cons kv rest ih =>
    intro r k h1 h2
    rw [applyFileLayer_unfold]
    rw [ih _ k (fun kv' h' => h1 kv' (List.mem_cons_of_mem _ h'))
      (fun he => (h2 he).imp (fun ha kv' h' => ha kv' (List.mem_cons_of_mem _ h')) id)]
    by_cases hfire : (kv.1 == "artist" && dmem a "artist") = true
    · rw [if_pos hfire]
      rw [Bool.and_eq_true] at hfire
      obtain ⟨hart, hm⟩ := hfire
      have hka : k ≠ "artist" := fun he =>
        h1 kv (List.mem_cons_self _ _) (by rw [beq_iff_eq.mp hart, he])
      have hkaa : k ≠ "albumartist" := by
        intro he
        rcases h2 he with hleft | hright
        · exact hleft kv (List.mem_cons_self _ _) (beq_iff_eq.mp hart)
        · rw [hm] at hright
          exact Bool.true_eq_false.mp hright
      rw [dget?_dinsert_ne _ _ (Ne.symm hka), dget?_dinsert_ne _ _ (Ne.symm hkaa)]
    · rw [if_neg hfire]
      exact dget?_dinsert_ne _ _ (h1 kv (List.mem_cons_self _ _))

/-- A per-file field always wins for its own key (for `artist` the
side effect writes `albumartist`, not `artist` itself). -/
theorem applyFileLayer_mem (a f : Dict String) :
    ∀ (r : Dict String) (k v : String),
    NodupKeys f → (k, v) ∈ f →
    (k = "albumartist" → (∀ kv ∈ f, kv.1 ≠ "artist") ∨ dmem a "artist" = false) →
    dget? (applyFileLayer a r f) k = some v := by
  induction f with
  | nil => intro r k v _ hmem _; simp at hmem
  | cons kv rest ih =>
    intro r k v hnd hmem h2
    obtain ⟨hfresh, hnd'⟩ := nodupKeys_cons hnd
    rw [applyFileLayer_unfold]
    rcases List.mem_cons.mp hmem with heq | hmem'
    · obtain rfl : kv = (k, v) := heq.symm
      rw [applyFileLayer_skip a rest _ k (fun kv' h' => hfresh kv' h')
        (fun he => (h2 he).imp
          (fun ha kv' h' => ha kv' (List.mem_cons_of_mem _ h')) id)]
      by_cases hfire : (k == "artist" && dmem a "artist") = true
      · rw [if_pos hfire]
        rw [Bool.and_eq_true] at hfire
        obtain rfl := beq_iff_eq.mp hfire.1
        exact dget?_dinsert_self _ _ _
      · rw [if_neg hfire]
        exact dget?_dinsert_self _ _ _
    · exact ih _ k v hnd' hmem'
        (fun he => (h2 he).imp
          (fun ha kv' h' => ha kv' (List.mem_cons_of_mem _ h')) id)

/-- When album scope defines `artist` and the per-file dict overrides
it, the album value is written to `albumartist`. -/
theorem applyFileLayer_albumartist (a f : Dict String) :
    ∀ (r : Dict String) (fv : String),
    dmem a "artist" = true → NodupKeys f → ("artist", fv) ∈ f →
    (∀ kv ∈ f, kv.1 ≠ "albumartist") →
    dget? (applyFileLayer a r f) "albumartist" =
      some ((dget? a "artist").getD "") := by
  induction f with
  | nil => intro r fv _ _ hmem _; simp at hmem
  | cons kv rest ih =>
    intro r fv hm hnd hmem hnoaa
    obtain ⟨hfresh, hnd'⟩ := nodupKeys_cons hnd
    rw [applyFileLayer_unfold]
    rcases List.mem_cons.mp hmem with heq | hmem'
    · obtain rfl : kv = ("artist", fv) := heq.symm
      rw [if_pos (by simp [hm])]
      rw [applyFileLayer_skip a rest _ "albumartist"
        (fun kv' h' => hnoaa kv' (List.mem_cons_of_mem _ h'))
        (fun _ => Or.inl (fun kv' h' => hfresh kv' h'))]
      rw [dget?_dinsert_ne _ _ (by decide)]
      exact dget?_dinsert_self _ _ _
    · exact ih _ fv hm hnd' hmem' (fun kv' h' => hnoaa kv' (List.mem_cons_of_mem _ h'))

/-- **C2**: `merge_metadata` layers source tags below album fields
below per-file fields; an album-scope `title` is emitted as `album`
(and no `title` key unless a layer writes one); exactly when both
album scope and file scope define `artist`, the output `artist` is
the file value and `albumartist` receives the album value; and the
claim's two concrete examples merge exactly as stated. -/
theorem merge_metadata_precedence :
    (∀ (src a f : Dict String) (k v : String), NodupKeys f → dget? f k = some v →
      k ≠ "albumartist" → dget? (merge_metadata a f src) k = some v)
    ∧ (∀ (src a f : Dict String) (t : String), NodupKeys a → dget? a "title" = some t →
        (∀ kv ∈ a, kv.1 ≠ "album") → (∀ kv ∈ f, kv.1 ≠ "album") →
        dget? (merge_metadata a f src) "album" = some t)
    ∧ (∀ (src a f : Dict String) (k v : String), NodupKeys a → dget? a k = some v →
        k ≠ "title" → (k = "album" → ∀ kv ∈ a, kv.1 ≠ "title") →
        (∀ kv ∈ f, kv.1 ≠ k) →
        (k = "albumartist" → (∀ kv ∈ f, kv.1 ≠ "artist") ∨ dmem a "artist" = false) →
        dget? (merge_metadata a f src) k = some v)
    ∧ (∀ (src a f : Dict String) (k v : String), dget? src k = some v →
        (∀ kv ∈ a, kv.1 ≠ k) → (∀ kv ∈ f, kv.1 ≠ k) →
        (k = "album" → ∀ kv ∈ a, kv.1 ≠ "title") →
        (k = "albumartist" → (∀ kv ∈ f, kv.1 ≠ "artist") ∨ dmem a "artist" = false) →
        dget? (merge_metadata a f src) k = some v)
    ∧ (∀ (src a f : Dict String) (av fv : String),
        dget? a "artist" = some av → dget? f "artist" = some fv →
        NodupKeys f → (∀ kv ∈ f, kv.1 ≠ "albumartist") →
        dget? (merge_metadata a f src) "artist" = some fv ∧
        dget? (merge_metadata a f src) "albumartist" = some av)
    ∧ (∀ (src a f : Dict String), dget? src "albumartist" = none →
        (∀ kv ∈ a, kv.1 ≠ "albumartist") → (∀ kv ∈ f, kv.1 ≠ "albumartist") →
        (dmem a "artist" = false ∨ ∀ kv ∈ f, kv.1 ≠ "artist") →
        dget? (merge_metadata a f src) "albumartist" = none)
    ∧ merge_metadata [("artist", "A")] [("artist", "B")] []
        = [("artist", "B"), ("albumartist", "A")]
    ∧ merge_metadata [("title", "T")] [] [] = [("album", "T")] := by
  refine ⟨?_, ?_, ?_, ?_, ?_, ?_, by decide, by decide⟩
  · intro src a f k v hnd hget hk
    exact applyFileLayer_mem a f _ k v hnd (mem_of_dget?_eq_some hget)
      (fun he => absurd he hk)
  · intro src a f t hnd hget hna hnf
    rw [merge_metadata, applyFileLayer_skip a f _ "album" hnf
      (fun he => absurd he (by decide))]
    exact applyAlbumLayer_title a _ t hnd (mem_of_dget?_eq_some hget) hna
  · intro src a f k v hnd hget hk h2 hnf h3
    rw [merge_metadata, applyFileLayer_skip a f _ k hnf h3]
    exact applyAlbumLayer_mem a _ k v hnd (mem_of_dget?_eq_some hget) hk h2
  · intro src a f k v hget hna hnf h2 h3
    rw [merge_metadata, applyFileLayer_skip a f _ k hnf h3,
      applyAlbumLayer_skip a _ k hna h2]
    exact hget
  · intro src a f av fv hga hgf hnd hnoaa
    constructor
    · exact applyFileLayer_mem a f _ "artist" fv hnd (mem_of_dget?_eq_some hgf)
        (fun he => absurd he (by decide))
    · rw [merge_metadata, applyFileLayer_albumartist a f _ fv
        (by rw [dmem_eq_isSome, hga]; rfl) hnd (mem_of_dget?_eq_some hgf) hnoaa, hga]
      rfl
  · intro src a f hsrc hna hnf hdisj
    rw [merge_metadata, applyFileLayer_skip a f _ "albumartist"
        hnf (fun _ => hdisj.symm),
      applyAlbumLayer_skip a _ "albumartist" hna (fun he => absurd he (by decide))]
    exact hsrc

/-- Witness: the P4 instance, derived from the precedence theorem
with extra fields present in every layer. -/
theorem merge_metadata_precedence_witness :
    dget? (merge_metadata [("artist", "A"), ("date", "2012")]
        [("artist", "B"), ("title", "S")] [("genre", "G")]) "artist" = some "B" ∧
    dget? (merge_metadata [("artist", "A"), ("date", "2012")]
        [("artist", "B"), ("title", "S")] [("genre", "G")]) "albumartist" = some "A" :=
  merge_metadata_precedence.2.2.2.2.1 [("genre", "G")]
    [("artist", "A"), ("date", "2012")] [("artist", "B"), ("title", "S")] "A" "B"
    (by decide) (by decide) (by decide) (by decide)

/-! ## Claim C3: malformed file-section isolation -/

theorem startsWith_file_shape {l : List Char}
    (h : listStartsWith ("file:".data) l = true) : ∃ cs, l = 'f' :: cs := by
  cases l with
  | nil => exact absurd h (by decide)
  | cons c cs =>
    refine ⟨cs, ?_⟩
    have : ('f' == c) = true := by
      have hd : "file:".data = 'f' :: "ile:".data := rfl
      rw [hd] at h
      exact (Bool.and_eq_true _ _ ▸ h).1
    rw [beq_iff_eq.mp this]

/-- **C3**: a line starting with `file:` but not ending with `:` puts
the parser into the malformed-section state with no open file and no
change to the collected fields; while the malformed state holds,
every line that is not a syntactically valid `file:<name>:` header
leaves the album and file maps untouched and the malformed state set;
and the claim's concrete text parses to
`files == {"good": {"title": "Y"}}` with an empty album map. -/
theorem parse_malformed_section_isolation :
    (∀ (st : ParseState) (raw : List Char),
      listStartsWith ("file:".data) (stripChars raw) = true →
      listEndsWith ([':']) (stripChars raw) = false →
      processLine st raw = some { st with currentFile := none, inMalformed := true })
    ∧ (∀ (st : ParseState) (raw : List Char), st.inMalformed = true →
        ¬(listStartsWith ("file:".data) (stripChars raw) = true ∧
          listEndsWith ([':']) (stripChars raw) = true) →
        ∃ st', processLine st raw = some st' ∧ st'.album = st.album ∧
          st'.files = st.files ∧ st'.inMalformed = true)
    ∧ parse_metadata_file "file: bad\ntitle: X\n\nfile: good:\ntitle: Y" =
        some { album := [], files := [("good", [("title", "Y")])] } := by
  refine ⟨?_, ?_, by decide⟩
  · intro st raw hpre hsuf
    obtain ⟨cs, hl⟩ := startsWith_file_shape hpre
    simp only [processLine, hl]
    rw [hl] at hpre hsuf
    rw [if_neg (by simp), if_neg (by simp [listStartsWith]),
      if_neg (by simp [hpre, hsuf]), if_pos hpre]
  · intro st raw hmal hnot
    by_cases h1 : stripChars raw = []
    · exact ⟨st, by simp only [processLine]; rw [if_pos h1], rfl, rfl, hmal⟩
    by_cases h2 : listStartsWith ['#'] (stripChars raw) = true
    · exact ⟨st, by simp only [processLine]; rw [if_neg h1, if_pos h2], rfl, rfl, hmal⟩
    by_cases h3 : listStartsWith ("file:".data) (stripChars raw) = true
    · refine ⟨{ st with currentFile := none, inMalformed := true }, ?_, rfl, rfl, rfl⟩
      simp only [processLine]
      rw [if_neg h1, if_neg h2, if_neg (fun hc => by
          rw [Bool.and_eq_true] at hc
          exact hnot ⟨hc.1, hc.2⟩),
        if_pos h3]
    · refine ⟨st, ?_, rfl, rfl, hmal⟩
      simp only [processLine]
      rw [if_neg h1, if_neg h2, if_neg (by simp [h3]), if_neg h3, if_pos hmal]

/-- Witness: the isolation theorem applied to the malformed header
line `file: bad` in the initial state. -/
theorem parse_malformed_section_isolation_witness :
    processLine initState ("file: bad".data) =
      some { initState with currentFile := none, inMalformed := true } :=
  parse_malformed_section_isolation.1 initState ("file: bad".data)
    (by decide) (by decide)

/-! ## Claim C6: parser totality -/

/-- The parser-loop invariant: whenever `current_file` is a truthy
string, `result["files"]` has an entry for it (so the dictionary
subscript in the `key: value` branch cannot raise `KeyError`). -/
def StateWF (st : ParseState) : Prop :=
  ∀ cf : String, st.currentFile = some cf → cf ≠ "" → dmem st.files cf = true

theorem processLine_total {st : ParseState} (raw : List Char) (hwf : StateWF st) :
    ∃ st', processLine st raw = some st' ∧ StateWF st' := by
  by_cases h1 : stripChars raw = []
  · refine ⟨st, ?_, hwf⟩
    simp only [processLine]
    rw [if_pos h1]
  by_cases h2 : listStartsWith ['#'] (stripChars raw) = true
  · refine ⟨st, ?_, hwf⟩
    simp only [processLine]
    rw [if_neg h1, if_pos h2]
  by_cases h3 : (listStartsWith ("file:".data) (stripChars raw) &&
      listEndsWith ([':']) (stripChars raw)) = true
  · refine ⟨{ st with
        currentFile := some ⟨stripChars (((stripChars raw).drop 5).dropLast)⟩,
        inMalformed := false,
        files := if dmem st.files ⟨stripChars (((stripChars raw).drop 5).dropLast)⟩ then
            st.files
          else dinsert st.files ⟨stripChars (((stripChars raw).drop 5).dropLast)⟩ [] },
      ?_, ?_⟩
    · simp only [processLine]
      rw [if_neg h1, if_neg h2, if_pos h3]
    · intro cf hcf hne
      obtain rfl : (⟨stripChars (((stripChars raw).drop 5).dropLast)⟩ : String) = cf :=
        Option.some_injective _ hcf
      by_cases hm : dmem st.files (⟨stripChars (((stripChars raw).drop 5).dropLast)⟩ : String) = true
      · rw [if_pos hm]
        exact hm
      · rw [if_neg hm]
        exact dmem_dinsert_self _ _ _
  by_cases h4 : listStartsWith ("file:".data) (stripChars raw) = true
  · refine ⟨{ st with currentFile := none, inMalformed := true }, ?_, ?_⟩
    · simp only [processLine]
      rw [if_neg h1, if_neg h2, if_neg h3, if_pos h4]
    · intro cf hcf
      exact absurd hcf (by simp)
  by_cases h5 : st.inMalformed = true
  · refine ⟨st, ?_, hwf⟩
    simp only [processLine]
    rw [if_neg h1, if_neg h2, if_neg h3, if_neg h4, if_pos h5]
  by_cases h6 : (stripChars raw).contains ':' = true
  · have h6' : ':' ∈ stripChars raw := by simpa using h6
    cases hcf : st.currentFile with
    | none =>
      refine ⟨{ st with album := dinsert st.album (⟨stripChars ((stripChars raw).takeWhile (fun c => c ≠ ':'))⟩ : String) (⟨stripChars (((stripChars raw).dropWhile (fun c => c ≠ ':')).drop 1)⟩ : String) }, ?_, ?_⟩
      · simp [processLine, h1, h2, h3, h4, h5, h6, h6', hcf]
      · exact hwf
    | some cf =>
      by_cases hne : cf = ""
      · refine ⟨{ st with album := dinsert st.album (⟨stripChars ((stripChars raw).takeWhile (fun c => c ≠ ':'))⟩ : String) (⟨stripChars (((stripChars raw).dropWhile (fun c => c ≠ ':')).drop 1)⟩ : String) }, ?_, ?_⟩
        · simp [processLine, h1, h2, h3, h4, h5, h6, h6', hcf, hne]
        · exact hwf
      · have hm := hwf cf hcf hne
        rw [dmem_eq_isSome] at hm
        obtain ⟨d, hd⟩ := Option.isSome_iff_exists.mp hm
        refine ⟨{ st with files := dinsert st.files cf (dinsert d (⟨stripChars ((stripChars raw).takeWhile (fun c => c ≠ ':'))⟩ : String) (⟨stripChars (((stripChars raw).dropWhile (fun c => c ≠ ':')).drop 1)⟩ : String)) }, ?_, ?_⟩
        · simp [processLine, h1, h2, h3, h4, h5, h6, h6', hcf, hne, hd]
        · intro cf' hcf' hne'
          obtain rfl : cf = cf' := Option.some_injective _ (hcf ▸ hcf')
          exact dmem_dinsert_self _ _ _
  · refine ⟨st, ?_, hwf⟩
    simp only [processLine]
    rw [if_neg h1, if_neg h2, if_neg h3, if_neg h4, if_neg h5, if_neg h6]

theorem runParse_isSome :
    ∀ (lines : List (List Char)) (st : ParseState), StateWF st →
    (runParse st lines).isSome := by
  intro lines
  induction lines with
  | nil => intro st _; rfl
  | cons l ls ih =>
    intro st hwf
    obtain ⟨st', hst', hwf'⟩ := processLine_total l hwf
    rw [runParse, hst']
    exact ih st' hwf'

/-- **C6**: `parse_metadata_file` is total — it returns a parsed
result on every input string, however malformed; in particular the
dictionary subscript in the `key: value` branch (the one failure
point, modelled by `Option`) is unreachable. -/
theorem parse_metadata_file_total (content : String) :
    (parse_metadata_file content).isSome := by
  rw [parse_metadata_file]
  have h := runParse_isSome (splitNl content.data) initState
    (fun cf hcf => absurd hcf (by simp [initState]))
  obtain ⟨st, hst⟩ := Option.isSome_iff_exists.mp h
  rw [hst]
  rfl

/-! ## Claim C4: generator/parser round trip

The round trip holds for inputs the text format can represent; the
predicates below state the conditions, and the counterexample theorem
shows the round trip fails without them. -/

/-- A value survives rendering and re-parsing: it equals its own
strip and holds no newline. -/
def GoodVal (v : String) : Prop :=
  pyStrip v = v ∧ '\n' ∉ v.data

/-- A field key survives rendering and re-parsing: a good value that
moreover holds no colon, does not open a comment, and is not the word
`file` (whose rendered line would be taken for a section header). -/
def GoodKey (k : String) : Prop :=
  GoodVal k ∧ ':' ∉ k.data ∧ listStartsWith ['#'] k.data = false ∧ k ≠ "file"

/-- A filename survives rendering and re-parsing: stripped, free of
newlines and non-empty (the empty name renders as `file: :`, whose
parsed name is falsy in Python, sending the section's fields to album
scope). -/
def GoodName (fn : String) : Prop :=
  pyStrip fn = fn ∧ '\n' ∉ fn.data ∧ fn ≠ ""

theorem strip_fix_data {s : String} (h : pyStrip s = s) :
    stripChars s.data = s.data :=
  congrArg String.data h

theorem dropWhile_length_le {α : Type} (p : α → Bool) (l : List α) :
    (l.dropWhile p).length ≤ l.length := by
  induction l with
  | nil => simp
  | cons c t ih =>
    rw [List.dropWhile_cons]
    by_cases hc : p c = true
    · rw [if_pos hc]
      exact Nat.le_trans ih (by simp)
    · rw [if_neg hc]

theorem dropWhile_eq_self_of_length {α : Type} {p : α → Bool} {l : List α}
    (h : (l.dropWhile p).length = l.length) : l.dropWhile p = l := by
  induction l with
  | nil => rfl
  | cons c t ih =>
    rw [List.dropWhile_cons] at h ⊢
    by_cases hc : p c = true
    · rw [if_pos hc] at h
      have := dropWhile_length_le p t
      simp at h
      omega
    · rw [if_neg hc]

theorem stripLeft_fix_of_strip {cs : List Char} (h : stripChars cs = cs) :
    stripLeft cs = cs := by
  have h1 : (stripLeft cs).length ≤ cs.length := dropWhile_length_le _ _
  have h2 : cs.length ≤ (stripLeft cs).length := by
    conv_lhs => rw [← h]
    rw [stripChars, stripRight, List.length_reverse]
    calc (List.dropWhile (fun c => c.isWhitespace) (stripLeft cs).reverse).length
        ≤ (stripLeft cs).reverse.length := dropWhile_length_le _ _
      _ = (stripLeft cs).length := List.length_reverse _
  exact dropWhile_eq_self_of_length (Nat.le_antisymm h1 h2)

theorem stripRight_fix_of_strip {cs : List Char} (h : stripChars cs = cs) :
    stripRight cs = cs := by
  have hl := stripLeft_fix_of_strip h
  rw [stripChars, hl] at h
  exact h

theorem stripRight_rev_fix {cs : List Char} (h : stripRight cs = cs) :
    cs.reverse.dropWhile (fun c => c.isWhitespace) = cs.reverse := by
  have := congrArg List.reverse h
  rw [stripRight, List.reverse_reverse] at this
  exact this

theorem dropWhile_append_of_fix {p : Char → Bool} {l m : List Char}
    (h : l.dropWhile p = l) (hne : l ≠ []) :
    (l ++ m).dropWhile p = l ++ m := by
  cases l with
  | nil => exact absurd rfl hne
  | cons c t =>
    have hc : p c = false := by
      rw [List.dropWhile_cons] at h
      by_cases hpc : p c = true
      · rw [if_pos hpc] at h
        have h1 := dropWhile_length_le p t
        have h2 := congrArg List.length h
        simp at h2
        omega
      · exact Bool.eq_false_iff.mpr hpc
    rw [List.cons_append, List.dropWhile_cons, hc]
    simp

theorem stripLeft_append_of_fix {l m : List Char}
    (h : stripLeft l = l) (hne : l ≠ []) : stripLeft (l ++ m) = l ++ m :=
  dropWhile_append_of_fix h hne

theorem stripRight_append_of_fix {l m : List Char}
    (h : stripRight m = m) (hne : m ≠ []) : stripRight (l ++ m) = l ++ m := by
  have hfix := stripRight_rev_fix h
  have hne' : m.reverse ≠ [] := by simpa using hne
  rw [stripRight, List.reverse_append, dropWhile_append_of_fix hfix hne']
  rw [List.reverse_append, List.reverse_reverse, List.reverse_reverse]

@[simp] theorem listStartsWith_nil_pat (l : List Char) :
    listStartsWith [] l = true := rfl

@[simp] theorem listStartsWith_cons_nil (p : Char) (ps : List Char) :
    listStartsWith (p :: ps) [] = false := rfl

@[simp] theorem listStartsWith_cons_cons (p : Char) (ps : List Char) (c : Char)
    (cs : List Char) :
    listStartsWith (p :: ps) (c :: cs) = (p == c && listStartsWith ps cs) := rfl

theorem mk_data (s : String) : (⟨s.data⟩ : String) = s := rfl

theorem data_ne_nil {s : String} (h : s ≠ "") : s.data ≠ [] := by
  intro hd
  exact h (by cases s; simp_all)

theorem kvLine_data (k v : String) :
    (k ++ ": " ++ v).data = k.data ++ ':' :: ' ' :: v.data := by
  have h1 : (k ++ ": " ++ v).data = (k ++ ": ").data ++ v.data := String.data_append _ _
  have h2 : (k ++ ": ").data = k.data ++ [':', ' '] := String.data_append _ _
  rw [h1, h2]
  simp only [List.append_assoc, List.cons_append, List.nil_append]

theorem headerLine_data (fn : String) :
    ("file: " ++ fn ++ ":").data = "file: ".data ++ fn.data ++ [':'] := by
  have h1 : ("file: " ++ fn ++ ":").data = ("file: " ++ fn).data ++ (":" : String).data :=
    String.data_append _ _
  have h2 : ("file: " ++ fn).data = "file: ".data ++ fn.data := String.data_append _ _
  rw [h1, h2]

theorem stripLeft_key_colon {k : String} (hk : pyStrip k = k) :
    stripLeft (k.data ++ [':']) = k.data ++ [':'] := by
  by_cases h0 : k.data = []
  · rw [h0]
    decide
  · exact stripLeft_append_of_fix (stripLeft_fix_of_strip (strip_fix_data hk)) h0

theorem stripChars_kvLine {k v : String} (hk : pyStrip k = k) (hv : pyStrip v = v) :
    stripChars (k.data ++ ':' :: ' ' :: v.data) =
      k.data ++ ':' :: (if v = "" then [] else ' ' :: v.data) := by
  have hleft : stripLeft (k.data ++ ':' :: ' ' :: v.data) =
      k.data ++ ':' :: ' ' :: v.data := by
    have h2 := stripLeft_append_of_fix (m := ' ' :: v.data)
      (stripLeft_key_colon hk) (by simp)
    simpa using h2
  rw [stripChars, hleft]
  by_cases hv0 : v = ""
  · have hvd : v.data = [] := by rw [hv0]
    rw [hvd, if_pos hv0, stripRight]
    have hrev : (k.data ++ ':' :: ' ' :: ([] : List Char)).reverse =
        ' ' :: ':' :: k.data.reverse := by simp
    rw [hrev, List.dropWhile_cons, if_pos (by decide), List.dropWhile_cons,
      if_neg (by decide)]
    simp
  · have hvfix : stripRight v.data = v.data := stripRight_fix_of_strip (strip_fix_data hv)
    have hvne : v.data ≠ [] := data_ne_nil hv0
    have := stripRight_append_of_fix (l := k.data ++ [':', ' ']) hvfix hvne
    rw [if_neg hv0]
    simpa using this

theorem stripChars_headerLine (fn : String) :
    stripChars ("file: ".data ++ fn.data ++ [':']) =
      "file: ".data ++ fn.data ++ [':'] := by
  have hleft : stripLeft ("file: ".data ++ fn.data ++ [':']) =
      "file: ".data ++ fn.data ++ [':'] := by
    have : "file: ".data ++ fn.data ++ [':'] =
        'f' :: ("ile: ".data ++ fn.data ++ [':']) := by
      simp [show "file: ".data = 'f' :: "ile: ".data from rfl]
    rw [this, stripLeft, List.dropWhile_cons, if_neg (by decide)]
  rw [stripChars, hleft]
  have : "file: ".data ++ fn.data ++ [':'] = ("file: ".data ++ fn.data) ++ [':'] := by
    simp
  rw [this, stripRight_append_of_fix (by decide) (by simp)]

theorem hash_false {k : String} (hk : listStartsWith ['#'] k.data = false)
    (rest : List Char) :
    listStartsWith ['#'] (k.data ++ ':' :: rest) = false := by
  cases hd : k.data with
  | nil =>
    have : ('#' == ':') = false := rfl
    simp [this]
  | cons c t =>
    rw [hd] at hk
    simp only [listStartsWith_cons_cons, listStartsWith_nil_pat, Bool.and_true] at hk
    simp [hk]

theorem file_false_list {kd : List Char} (hcol : ':' ∉ kd)
    (hne : kd ≠ ['f', 'i', 'l', 'e']) (rest : List Char) :
    listStartsWith ("file:".data) (kd ++ ':' :: rest) = false := by
  have hdata : "file:".data = ['f', 'i', 'l', 'e', ':'] := rfl
  rw [hdata]
  match kd, hcol, hne with
  | [], _, _ =>
    have : ('f' == ':') = false := rfl
    simp [this]
  | [a], _, _ =>
    have : ('i' == ':') = false := rfl
    simp [this]
  | [a, b], _, _ =>
    have : ('l' == ':') = false := rfl
    simp [this]
  | [a, b, c], _, _ =>
    have : ('e' == ':') = false := rfl
    simp [this]
  | [a, b, c, d], _, hne =>
    rw [Bool.eq_false_iff]
    intro h
    simp only [List.cons_append, List.nil_append, listStartsWith_cons_cons,
      listStartsWith_nil_pat, Bool.and_eq_true, beq_iff_eq] at h
    obtain ⟨rfl, rfl, rfl, rfl, -⟩ := h
    exact hne rfl
  | a :: b :: c :: d :: e :: t, hcol, _ =>
    rw [Bool.eq_false_iff]
    intro h
    simp only [List.cons_append, listStartsWith_cons_cons, Bool.and_eq_true,
      beq_iff_eq] at h
    obtain ⟨-, -, -, -, he, -⟩ := h
    rw [← he] at hcol
    simp at hcol

theorem takeWhile_no_colon {kd : List Char} (h : ':' ∉ kd) (rest : List Char) :
    (kd ++ ':' :: rest).takeWhile (fun c => c ≠ ':') = kd := by
  induction kd with
  | nil =>
    rw [List.nil_append, List.takeWhile_cons]
    simp
  | cons c t ih =>
    have hc : c ≠ ':' := by
      intro he
      rw [he] at h
      simp at h
    rw [List.cons_append, List.takeWhile_cons]
    simp only [decide_eq_true hc, if_true]
    rw [ih (fun hm => h (List.mem_cons_of_mem _ hm))]

theorem dropWhile_to_colon {kd : List Char} (h : ':' ∉ kd) (rest : List Char) :
    (kd ++ ':' :: rest).dropWhile (fun c => c ≠ ':') = ':' :: rest := by
  induction kd with
  | nil =>
    rw [List.nil_append, List.dropWhile_cons]
    simp
  | cons c t ih =>
    have hc : c ≠ ':' := by
      intro he
      rw [he] at h
      simp at h
    rw [List.cons_append, List.dropWhile_cons]
    simp only [decide_eq_true hc, if_true]
    exact ih (fun hm => h (List.mem_cons_of_mem _ hm))

theorem strip_space_val {v : String} (hfix : pyStrip v = v) :
    stripChars (' ' :: v.data) = v.data := by
  have hl := stripLeft_fix_of_strip (strip_fix_data hfix)
  rw [stripChars, stripLeft, List.dropWhile_cons, if_pos (by decide)]
  rw [show List.dropWhile (fun c => c.isWhitespace) v.data = v.data from hl]
  exact stripRight_fix_of_strip (strip_fix_data hfix)

theorem runParse_append (l₁ l₂ : List (List Char)) (st : ParseState) :
    runParse st (l₁ ++ l₂) =
      (runParse st l₁).bind (fun st' => runParse st' l₂) := by
  induction l₁ generalizing st with
  | nil => rfl
  | cons l ls ih =>
    rw [List.cons_append, runParse, runParse]
    cases processLine st l with
    | none => rfl
    | some st' => exact ih st'

theorem processLine_blank (st : ParseState) : processLine st ("" : String).data = some st :=
  rfl

theorem takeWhile_no_colon2 {kd : List Char} (h : ':' ∉ kd) (rest : List Char) :
    List.takeWhile (fun c => !decide (c = ':')) (kd ++ ':' :: rest) = kd := by
  have := takeWhile_no_colon h rest
  simpa using this

theorem dropWhile_to_colon2 {kd : List Char} (h : ':' ∉ kd) (rest : List Char) :
    List.dropWhile (fun c => !decide (c = ':')) (kd ++ ':' :: rest) = ':' :: rest := by
  have := dropWhile_to_colon h rest
  simpa using this

/-- The stripped value chunk of a rendered `key: value` line parses
back to the value. -/
theorem strip_val_if {v : String} (hvfix : pyStrip v = v) :
    (⟨stripChars (if v = "" then ([] : List Char) else ' ' :: v.data)⟩ : String) = v := by
  by_cases hv0 : v = ""
  · rw [if_pos hv0, hv0]
    rfl
  · rw [if_neg hv0, strip_space_val hvfix, mk_data]

/-- `processLine` on a rendered `key: value` line in album scope
(`current_file` is `None` or the falsy empty string). -/
theorem processLine_kv_album (st : ParseState) (k v : String)
    (hk : GoodKey k) (hv : GoodVal v) (hmal : st.inMalformed = false)
    (hcf : st.currentFile = none ∨ st.currentFile = some "") :
    processLine st ((k ++ ": " ++ v).data) =
      some { st with album := dinsert st.album k v } := by
  obtain ⟨⟨hkfix, hknl⟩, hkcol, hkhash, hkfile⟩ := hk
  obtain ⟨hvfix, hvnl⟩ := hv
  have hkd : k.data ≠ ['f', 'i', 'l', 'e'] := by
    intro hh
    exact hkfile (by rw [← mk_data k, hh])
  rw [kvLine_data]
  simp only [processLine, stripChars_kvLine hkfix hvfix]
  rcases hcf with hcf | hcf <;>
    simp [hcf, hmal, hash_false hkhash, file_false_list hkcol hkd,
      takeWhile_no_colon2 hkcol, dropWhile_to_colon2 hkcol,
      strip_fix_data hkfix, strip_val_if hvfix, mk_data]

/-- `processLine` on a rendered `key: value` line inside an open file
section whose entry exists. -/
theorem processLine_kv_file (st : ParseState) (k v cf : String) (d : Dict String)
    (hk : GoodKey k) (hv : GoodVal v) (hmal : st.inMalformed = false)
    (hcf : st.currentFile = some cf) (hcfne : cf ≠ "")
    (hd : dget? st.files cf = some d) :
    processLine st ((k ++ ": " ++ v).data) =
      some { st with files := dinsert st.files cf (dinsert d k v) } := by
  obtain ⟨⟨hkfix, hknl⟩, hkcol, hkhash, hkfile⟩ := hk
  obtain ⟨hvfix, hvnl⟩ := hv
  have hkd : k.data ≠ ['f', 'i', 'l', 'e'] := by
    intro hh
    exact hkfile (by rw [← mk_data k, hh])
  rw [kvLine_data]
  simp only [processLine, stripChars_kvLine hkfix hvfix]
  simp [hcf, hcfne, hd, hmal, hash_false hkhash, file_false_list hkcol hkd,
    takeWhile_no_colon2 hkcol, dropWhile_to_colon2 hkcol,
    strip_fix_data hkfix, strip_val_if hvfix, mk_data]

/-- `processLine` on a rendered `file: <name>:` header. -/
theorem processLine_header (st : ParseState) (fn : String) (hfn : GoodName fn) :
    processLine st (("file: " ++ fn ++ ":").data) =
      some { st with currentFile := some fn,
                     inMalformed := false,
                     files := if dmem st.files fn then st.files
                              else dinsert st.files fn [] } := by
  obtain ⟨hffix, hfnl, hfne⟩ := hfn
  have hsw : listStartsWith ("file:".data) ("file: ".data ++ fn.data ++ [':']) = true := by
    rw [show "file:".data = ['f', 'i', 'l', 'e', ':'] from rfl,
      show "file: ".data = ['f', 'i', 'l', 'e', ':', ' '] from rfl]
    simp
  have hew : listEndsWith ([':']) ("file: ".data ++ fn.data ++ [':']) = true := by
    rw [listEndsWith]
    simp
  have hhash : listStartsWith ['#'] ("file: ".data ++ fn.data ++ [':']) = false := by
    rw [show "file: ".data = ['f', 'i', 'l', 'e', ':', ' '] from rfl]
    simp only [List.cons_append, listStartsWith_cons_cons]
    rw [show ('#' == 'f') = false from rfl]
    simp
  have hdrop : (("file: ".data ++ fn.data ++ [':']).drop 5) = ' ' :: (fn.data ++ [':']) := by
    rw [show "file: ".data = ['f', 'i', 'l', 'e', ':', ' '] from rfl]
    simp
  have hlast : (' ' :: (fn.data ++ [':'])).dropLast = ' ' :: fn.data := by
    rw [← List.cons_append, List.dropLast_concat]
  rw [headerLine_data]
  simp only [processLine, stripChars_headerLine fn]
  rw [if_neg (by simp), if_neg (by rw [hhash]; simp), if_pos (by rw [hsw, hew]; rfl)]
  rw [hdrop, hlast, strip_space_val hffix, mk_data]

theorem splitNl_no_nl {l : List Char} (h : '\n' ∉ l) : splitNl l = [l] := by
  induction l with
  | nil => rfl
  | cons c cs ih =>
    have hc : c ≠ '\n' := by
      intro he
      rw [he] at h
      simp at h
    rw [splitNl, if_neg hc, ih (fun hm => h (List.mem_cons_of_mem _ hm))]

theorem splitNl_append {l : List Char} (h : '\n' ∉ l) (tail : List Char) :
    splitNl (l ++ '\n' :: tail) = l :: splitNl tail := by
  induction l with
  | nil => rw [List.nil_append, splitNl, if_pos rfl]
  | cons c cs ih =>
    have hc : c ≠ '\n' := by
      intro he
      rw [he] at h
      simp at h
    rw [List.cons_append, splitNl, if_neg hc, ih (fun hm => h (List.mem_cons_of_mem _ hm))]

theorem splitNl_joinNl : ∀ ls : List (List Char), ls ≠ [] → (∀ l ∈ ls, '\n' ∉ l) →
    splitNl (joinNl ls) = ls := by
  intro ls
  induction ls with
  | nil => intro h _; exact absurd rfl h
  | cons l rest ih =>
    intro _ hno
    cases rest with
    | nil => exact splitNl_no_nl (hno l (List.mem_cons_self _ _))
    | cons l2 r2 =>
      have hih := ih (List.cons_ne_nil l2 r2)
        (fun x hx => hno x (List.mem_cons_of_mem _ hx))
      rw [show joinNl (l :: l2 :: r2) = l ++ '\n' :: joinNl (l2 :: r2) from rfl,
        splitNl_append (hno l (List.mem_cons_self _ _)), hih]

theorem runParse_cons_some {st st' : ParseState} {l : List Char}
    (ls : List (List Char)) (h : processLine st l = some st') :
    runParse st (l :: ls) = runParse st' ls := by
  rw [runParse, h]

theorem runParse_blank_single (st : ParseState) :
    runParse st [("" : String).data] = some st := rfl

/-- The album block of rendered `key: value` lines accumulates the
album dict. -/
theorem runParse_album_block (a : Dict String) :
    ∀ st : ParseState,
    (∀ kv ∈ a, GoodKey kv.1 ∧ GoodVal kv.2) →
    st.inMalformed = false → st.currentFile = none →
    runParse st ((a.map (fun kv => kv.1 ++ ": " ++ kv.2)).map String.data) =
      some { st with album := a.foldl (fun d kv => dinsert d kv.1 kv.2) st.album } := by
  induction a with
  | nil => intro st _ _ _; rfl
  | cons kv rest ih =>
    intro st hgood hmal hcf
    rw [List.map_cons, List.map_cons]
    rw [runParse_cons_some _ (processLine_kv_album st kv.1 kv.2
      (hgood kv (List.mem_cons_self _ _)).1 (hgood kv (List.mem_cons_self _ _)).2
      hmal (Or.inl hcf))]
    rw [ih { st with album := dinsert st.album kv.1 kv.2 }
      (fun kv' h' => hgood kv' (List.mem_cons_of_mem _ h')) hmal hcf]
    rw [List.foldl_cons]

/-- The field lines of one file section accumulate into the entry of
the open file, appended at the end of the files dict. -/
theorem runParse_field_block (flds : Dict String) :
    ∀ (st : ParseState) (cf : String) (base : Dict (Dict String)) (d : Dict String),
    (∀ kv ∈ flds, GoodKey kv.1 ∧ GoodVal kv.2) →
    st.inMalformed = false → st.currentFile = some cf → cf ≠ "" →
    st.files = base ++ [(cf, d)] → dmem base cf = false →
    runParse st ((flds.map (fun kv => kv.1 ++ ": " ++ kv.2)).map String.data) =
      some { st with files :=
        base ++ [(cf, flds.foldl (fun dd kv => dinsert dd kv.1 kv.2) d)] } := by
  induction flds with
  | nil =>
    intro st cf base d _ _ _ _ hfiles _
    rw [List.map_nil, List.map_nil, List.foldl_nil, ← hfiles]
    rfl
  | cons kv rest ih =>
    intro st cf base d hgood hmal hcf hcfne hfiles hfresh
    have hbn : dget? base cf = none := by
      rw [← Option.not_isSome_iff_eq_none, ← dmem_eq_isSome]
      simp [hfresh]
    have hd : dget? st.files cf = some d := by
      rw [hfiles, dget?_append_right _ hbn, dget?_cons]
      simp
    rw [List.map_cons, List.map_cons]
    rw [runParse_cons_some _ (processLine_kv_file st kv.1 kv.2 cf d
      (hgood kv (List.mem_cons_self _ _)).1 (hgood kv (List.mem_cons_self _ _)).2
      hmal hcf hcfne hd)]
    have hfiles' : ({ st with files := dinsert st.files cf (dinsert d kv.1 kv.2) } :
        ParseState).files = base ++ [(cf, dinsert d kv.1 kv.2)] := by
      simp only [hfiles]
      exact dinsert_append_solo _ _ hfresh
    rw [ih { st with files := dinsert st.files cf (dinsert d kv.1 kv.2) }
      cf base (dinsert d kv.1 kv.2)
      (fun kv' h' => hgood kv' (List.mem_cons_of_mem _ h')) hmal hcf hcfne
      hfiles' hfresh]
    rw [List.foldl_cons]

/-- The state after a valid `file: <name>:` header opens the named
section. -/
def withOpenFile (st : ParseState) (fn : String) (fls : Dict (Dict String)) : ParseState :=
  { st with currentFile := some fn, inMalformed := false, files := fls }

/-- The per-file sections append one entry per (distinct, well-formed)
filename, leaving the album map untouched. -/
theorem runParse_sections (fns : List String) (fileD : Dict (Dict String)) :
    ∀ st : ParseState,
    fns.Nodup → (∀ fn ∈ fns, GoodName fn) →
    (∀ fn ∈ fns, NodupKeys ((dget? fileD fn).getD [])) →
    (∀ fn ∈ fns, ∀ kv ∈ (dget? fileD fn).getD [], GoodKey kv.1 ∧ GoodVal kv.2) →
    st.inMalformed = false →
    (∀ fn ∈ fns, dmem st.files fn = false) →
    ∃ st', runParse st (((fns.map (fun fn =>
        ("file: " ++ fn ++ ":") ::
          (((dget? fileD fn).getD []).map (fun kv => kv.1 ++ ": " ++ kv.2) ++ [""]))).flatten).map
        String.data) = some st' ∧
      st'.album = st.album ∧
      st'.files = st.files ++ fns.map (fun fn => (fn, (dget? fileD fn).getD [])) := by
  induction fns with
  | nil => intro st _ _ _ _ _ _; exact ⟨st, rfl, rfl, by simp⟩
  | cons fn rest ih =>
    intro st hnd hnames hnds hgood hmal hfresh
    obtain ⟨hfn_rest, hnd'⟩ := List.nodup_cons.mp hnd
    have hfr : dmem st.files fn = false := hfresh fn (List.mem_cons_self _ _)
    have hstep1 : processLine st (("file: " ++ fn ++ ":").data) =
        some (withOpenFile st fn (dinsert st.files fn [])) := by
      rw [processLine_header st fn (hnames fn (List.mem_cons_self _ _))]
      rw [if_neg (by simp [hfr])]
      rfl
    have hflds := runParse_field_block ((dget? fileD fn).getD [])
      (withOpenFile st fn (dinsert st.files fn []))
      fn st.files []
      (hgood fn (List.mem_cons_self _ _)) rfl rfl
      (hnames fn (List.mem_cons_self _ _)).2.2
      (dinsert_of_not_mem _ hfr) hfr
    have hfoldid : List.foldl (fun dd kv => dinsert dd kv.1 kv.2) []
        ((dget? fileD fn).getD []) = (dget? fileD fn).getD [] := by
      rw [foldl_dinsert_fresh _ [] (fun kv _ => rfl) (hnds fn (List.mem_cons_self _ _))]
      rfl
    have hmid : ({ withOpenFile st fn (dinsert st.files fn []) with files :=
        st.files ++ [(fn, List.foldl (fun dd kv => dinsert dd kv.1 kv.2) []
          ((dget? fileD fn).getD []))] } : ParseState) =
        withOpenFile st fn (st.files ++ [(fn, (dget? fileD fn).getD [])]) := by
      rw [hfoldid]
      rfl
    obtain ⟨st', hrun, halb, hfiles⟩ := ih
      (withOpenFile st fn (st.files ++ [(fn, (dget? fileD fn).getD [])]))
      hnd' (fun x hx => hnames x (List.mem_cons_of_mem _ hx))
      (fun x hx => hnds x (List.mem_cons_of_mem _ hx))
      (fun x hx => hgood x (List.mem_cons_of_mem _ hx)) rfl
      (fun x hx => by
        show dmem (st.files ++ [(fn, (dget? fileD fn).getD [])]) x = false
        rw [dmem_append, hfresh x (List.mem_cons_of_mem _ hx), dmem_cons, dmem_nil]
        have hxne : fn ≠ x := fun he => hfn_rest (he ▸ hx)
        simp [beq_eq_false_iff_ne.mpr hxne])
    refine ⟨st', ?_, halb, ?_⟩
    · rw [List.map_cons, List.flatten_cons, List.map_append, runParse_append]
      rw [List.map_cons, runParse_cons_some _ hstep1]
      rw [List.map_append, runParse_append, hflds]
      simp only [Option.some_bind]
      rw [hmid]
      have hblank : runParse (withOpenFile st fn
          (st.files ++ [(fn, (dget? fileD fn).getD [])]))
          (([""] : List String).map String.data) = some (withOpenFile st fn
          (st.files ++ [(fn, (dget? fileD fn).getD [])])) := rfl
      rw [hblank]
      simp only [Option.some_bind]
      exact hrun
    · rw [hfiles]
      show (withOpenFile st fn (st.files ++ [(fn, (dget? fileD fn).getD [])])).files ++ _ = _
      rw [withOpenFile]
      simp [List.append_assoc]

instance (v : String) : Decidable (GoodVal v) := by
  unfold GoodVal
  infer_instance

instance (k : String) : Decidable (GoodKey k) := by
  unfold GoodKey
  infer_instance

instance (fn : String) : Decidable (GoodName fn) := by
  unfold GoodName
  infer_instance

theorem no_nl_kvLine {k v : String} (hk : '\n' ∉ k.data) (hv : '\n' ∉ v.data) :
    '\n' ∉ (k ++ ": " ++ v).data := by
  rw [kvLine_data]
  intro hmem
  rcases List.mem_append.mp hmem with h | h
  · exact hk h
  · rcases List.mem_cons.mp h with he | h2
    · exact absurd he (by decide)
    · rcases List.mem_cons.mp h2 with he | h3
      · exact absurd he (by decide)
      · exact hv h3

theorem no_nl_headerLine {fn : String} (h : '\n' ∉ fn.data) :
    '\n' ∉ ("file: " ++ fn ++ ":").data := by
  rw [headerLine_data]
  intro hmem
  rcases List.mem_append.mp hmem with h1 | h1
  · rcases List.mem_append.mp h1 with h2 | h2
    · exact absurd h2 (by decide)
    · exact h h2
  · exact absurd h1 (by decide)

/-- **C4** (amended): re-parsing the non-blank rendered template
reproduces exactly the album mapping and, for each listed audio file,
its per-file mapping, provided the data is representable in the text
format: distinct, trimmed, newline-free, non-empty filenames; trimmed
newline-free field values; and field keys that are additionally
colon-free, not comment-opening, and not the word `file` — with each
mapping free of duplicate keys. -/
theorem generate_metadata_roundtrip :
    ∀ (fns : List String) (albumD : Dict String) (fileD : Dict (Dict String)),
    fns.Nodup →
    (∀ fn ∈ fns, GoodName fn) →
    NodupKeys albumD →
    (∀ kv ∈ albumD, GoodKey kv.1 ∧ GoodVal kv.2) →
    (∀ fn ∈ fns, NodupKeys ((dget? fileD fn).getD [])) →
    (∀ fn ∈ fns, ∀ kv ∈ (dget? fileD fn).getD [], GoodKey kv.1 ∧ GoodVal kv.2) →
    parse_metadata_file (generate_metadata_template fns albumD fileD false) =
      some { album := albumD,
             files := fns.map (fun fn => (fn, (dget? fileD fn).getD [])) } := by
  intro fns albumD fileD hnd hnames hnda hgooda hndf hgoodf
  have hlines : generateLines fns albumD fileD false =
      (["# This file contains metadata overrides for the export command",
        "# Fields: title, artist, date, track number, cover",
        "# Album-wide fields apply to all tracks unless overridden per-file",
        "",
        "# Album metadata"] : List String)
      ++ (albumD.map (fun kv => kv.1 ++ ": " ++ kv.2)
      ++ ((["", "# Per-file metadata"] : List String)
      ++ ((fns.map (fun fn => ("file: " ++ fn ++ ":") ::
            (((dget? fileD fn).getD []).map (fun kv => kv.1 ++ ": " ++ kv.2) ++ [""]))).flatten))) := by
    rw [generateLines]
    simp
  have hnoNl : ∀ l ∈ (generateLines fns albumD fileD false).map String.data,
      '\n' ∉ l := by
    intro l hl
    rw [List.mem_map] at hl
    obtain ⟨line, hline, rfl⟩ := hl
    rw [hlines] at hline
    rcases List.mem_append.mp hline with h | h
    · simp only [List.mem_cons, List.not_mem_nil, or_false] at h
      rcases h with rfl | rfl | rfl | rfl | rfl
      · decide
      · decide
      · decide
      · decide
      · decide
    rcases List.mem_append.mp h with h | h
    · rw [List.mem_map] at h
      obtain ⟨kv, hkv, rfl⟩ := h
      obtain ⟨⟨⟨-, hknl⟩, -, -, -⟩, -, hvnl⟩ := hgooda kv hkv
      exact no_nl_kvLine hknl hvnl
    rcases List.mem_append.mp h with h | h
    · simp only [List.mem_cons, List.not_mem_nil, or_false] at h
      rcases h with rfl | rfl
      · decide
      · decide
    · rw [List.mem_flatten] at h
      obtain ⟨sec, hsec, hmem⟩ := h
      rw [List.mem_map] at hsec
      obtain ⟨fn, hfn, rfl⟩ := hsec
      rcases List.mem_cons.mp hmem with rfl | hmem2
      · exact no_nl_headerLine (hnames fn hfn).2.1
      rcases List.mem_append.mp hmem2 with h2 | h2
      · rw [List.mem_map] at h2
        obtain ⟨kv, hkv, rfl⟩ := h2
        obtain ⟨⟨⟨-, hknl⟩, -, -, -⟩, -, hvnl⟩ := hgoodf fn hfn kv hkv
        exact no_nl_kvLine hknl hvnl
      · simp only [List.mem_cons, List.not_mem_nil, or_false] at h2
        obtain rfl := h2
        decide
  have hne : (generateLines fns albumD fileD false).map String.data ≠ [] := by
    rw [hlines]
    simp
  rw [parse_metadata_file, generate_metadata_template]
  rw [show (⟨joinNl ((generateLines fns albumD fileD false).map String.data)⟩ :
      String).data = joinNl ((generateLines fns albumD fileD false).map String.data)
    from rfl]
  rw [splitNl_joinNl _ hne hnoNl]
  rw [hlines]
  simp only [List.map_append]
  rw [runParse_append]
  rw [show runParse initState
      ((["# This file contains metadata overrides for the export command",
        "# Fields: title, artist, date, track number, cover",
        "# Album-wide fields apply to all tracks unless overridden per-file",
        "",
        "# Album metadata"] : List String).map String.data) = some initState from rfl]
  simp only [Option.some_bind]
  rw [runParse_append]
  rw [runParse_album_block albumD initState hgooda rfl rfl]
  simp only [Option.some_bind]
  have hfold : List.foldl (fun d kv => dinsert d kv.1 kv.2) initState.album albumD
      = albumD := by
    rw [show initState.album = ([] : Dict String) from rfl,
      foldl_dinsert_fresh albumD [] (fun kv _ => rfl) hnda]
    rfl
  rw [hfold]
  rw [runParse_append]
  rw [show runParse { initState with album := albumD }
      ((["", "# Per-file metadata"] : List String).map String.data)
      = some { initState with album := albumD } from rfl]
  simp only [Option.some_bind]
  obtain ⟨st', hrun, halb, hfiles⟩ := runParse_sections fns fileD
    { initState with album := albumD } hnd hnames hndf hgoodf rfl (fun fn _ => rfl)
  rw [hrun]
  simp only [Option.map_some']
  rw [show ({ initState with album := albumD } : ParseState).album = albumD from rfl] at halb
  rw [show ({ initState with album := albumD } : ParseState).files = [] from rfl] at hfiles
  rw [List.nil_append] at hfiles
  rw [halb, hfiles]

/-- **C4** (counterexample to the unconditional claim): an album
mapping whose key is the word `file` does not survive the round trip
— its rendered line `file: x` is swallowed as a malformed section
header and the parsed album map is empty. -/
theorem generate_metadata_roundtrip_cex :
    parse_metadata_file (generate_metadata_template [] [("file", "x")] [] false) =
      some { album := [], files := [] }
    ∧ ([("file", "x")] : Dict String) ≠ [] := by
  refine ⟨by decide, by decide⟩

/-- Witness: the round trip at a concrete one-file template. -/
theorem generate_metadata_roundtrip_witness :
    parse_metadata_file (generate_metadata_template ["t1.flac"] [("title", "T")]
        [("t1.flac", [("title", "X"), ("track number", "01")])] false) =
      some { album := [("title", "T")],
             files := [("t1.flac", [("title", "X"), ("track number", "01")])] } := by
  have h := generate_metadata_roundtrip ["t1.flac"] [("title", "T")]
    [("t1.flac", [("title", "X"), ("track number", "01")])]
    (by decide) (by decide) (by decide) (by decide) (by decide) (by decide)
  simpa using h

end MusicLib
